import Mathlib

/-!
Verification development for the Motiontography KB-only FAQ bot
(`server.js` plus the two Cloudflare Worker variants and the OpenAI
helper module).  The JavaScript core is shallowly embedded below:
strings are `String`/`List Char`, the two fixed address-scrub regexes
are embedded as explicit deterministic matchers with JavaScript
`String.replace` global-scan semantics, and the user-supplied trigger
regexes (whose compilation is performed by the JS `RegExp` engine) are
abstracted as a `RegexEngine` oracle.  JavaScript `toLowerCase` is
modelled on the ASCII range, which covers every literal the core
compares against.
-/

namespace Motionbot

/-- The JavaScript `\s` / `trim` whitespace class (ECMA-262 WhiteSpace
plus LineTerminator code points). -/
def jsWhitespace (c : Char) : Bool :=
  c.toNat = 32 || c.toNat = 9 || c.toNat = 10 || c.toNat = 13 ||
  c.toNat = 11 || c.toNat = 12 || c.toNat = 0xA0 || c.toNat = 0x1680 ||
  (0x2000 ≤ c.toNat && c.toNat ≤ 0x200A) ||
  c.toNat = 0x2028 || c.toNat = 0x2029 || c.toNat = 0x202F ||
  c.toNat = 0x205F || c.toNat = 0x3000 || c.toNat = 0xFEFF

/-- ASCII lower-casing, the fragment of JS `toLowerCase` / case-insensitive
regex canonicalisation exercised by the core (all compared literals are
ASCII). -/
def lcA (c : Char) : Char :=
  if 65 ≤ c.toNat ∧ c.toNat ≤ 90 then Char.ofNat (c.toNat + 32) else c

/-- JS digit class `\d`. -/
def isDigitCh (c : Char) : Bool := 48 ≤ c.toNat && c.toNat ≤ 57

/-- Decide whether `n` sits at the front of `s` (JS `startsWith` on char
lists, exact comparison). -/
def leads : List Char → List Char → Bool
  | [], _ => true
  | _ :: _, [] => false
  | a :: as, b :: bs => a = b && leads as bs

/-- JS `String.prototype.includes`: the needle occurs contiguously
somewhere in the haystack. -/
def occursIn (n : List Char) : List Char → Bool
  | [] => leads n []
  | h :: t => leads n (h :: t) || occursIn n t

/-- JS `split(" ")` on a char list (split on the literal single-space
separator, keeping empty fields, as `String.prototype.split` does). -/
def splitSp : List Char → List (List Char)
  | [] => [[]]
  | c :: rest =>
    match splitSp rest with
    | [] => [[]]
    | w :: ws => if c = ' ' then [] :: w :: ws else (c :: w) :: ws

/-- JS `trim` (both ends, JS whitespace class). -/
def jsTrim (l : List Char) : List Char :=
  ((l.dropWhile jsWhitespace).reverse.dropWhile jsWhitespace).reverse

/-- One pass of the JS regex replace `\s+` → `" "`: every maximal
whitespace run becomes a single space.  The boolean records whether the
previous character was part of a run already emitted. -/
def cwAux : Bool → List Char → List Char
  | _, [] => []
  | inRun, c :: rest =>
    if jsWhitespace c then
      if inRun then cwAux true rest else ' ' :: cwAux true rest
    else c :: cwAux false rest

/-- `norm` from the source: lowercase, collapse whitespace runs to single
spaces, trim. -/
def normChars (l : List Char) : List Char :=
  jsTrim (cwAux false (l.map lcA))

def normStr (s : String) : String := ⟨normChars s.data⟩

/-- JS `lastIndexOf` on a char list: `-1` when absent, else the largest
index holding the character. -/
def lastIdxOf (c : Char) : List Char → Int
  | [] => -1
  | a :: rest =>
    let r := lastIdxOf c rest
    if 0 ≤ r then r + 1 else if a = c then 0 else -1

/-- `isRegexTrigger` from the source: the trigger text starts with `/`
and the last `/` sits strictly after position 0. -/
def isRegexTrigger (t : String) : Bool :=
  leads ['/'] t.data && 0 < lastIdxOf '/' t.data

/-- The `slice(1, lastSlash)` pattern body of a regex-form trigger. -/
def regexBody (t : String) : List Char :=
  (t.data.take (lastIdxOf '/' t.data).toNat).drop 1

/-- The `slice(lastSlash + 1)` flag text of a regex-form trigger. -/
def regexFlags (t : String) : List Char :=
  t.data.drop ((lastIdxOf '/' t.data).toNat + 1)

/-- The JS `RegExp` engine, abstracted: `compile pattern flags` returns
`none` when `new RegExp` throws, otherwise a test on the raw message. -/
structure RegexEngine where
  compile : List Char → List Char → Option (String → Bool)

/-- `Math.ceil(n * 0.7)`: exact rational arithmetic; the IEEE-double
product `n * 0.7` under-approximates `7n/10` by less than one ulp, so
its ceiling agrees with the exact ceiling for every realistic `n`. -/
def ceil07 (n : Nat) : Nat := (7 * n + 9) / 10

/-- Per-trigger contribution of `scoreIntent`'s loop body, translated
statement by statement (`msg` is the normalized message, `message` the
raw one; a regex-form trigger is handled first and then skipped via
`continue`). -/
def triggerScore (e : RegexEngine) (message : String) (msg : List Char) (t : String) : Nat :=
  if t = "" then 0
  else if isRegexTrigger t then
    match e.compile (regexBody t) (regexFlags t) with
    | none => 0
    | some test => if test message then 3 else 0
  else
    let trig := normChars t.data
    if trig = [] then 0
    else
      let score1 := if occursIn trig msg then 2 else 0
      let words := (splitSp trig).filter (fun w => decide (w ≠ []))
      if 2 ≤ words.length then
        let hits := (words.filter (fun w => occursIn w msg)).length
        if ceil07 words.length ≤ hits then score1 + 1 else score1
      else score1

/-- Sum of per-trigger contributions: the accumulating loop of
`scoreIntent`. -/
def scoreTriggers (e : RegexEngine) (message : String) (msg : List Char) :
    List String → Nat
  | [] => 0
  | t :: ts => triggerScore e message msg t + scoreTriggers e message msg ts

/-- JS truthiness-based `a || b` on optional strings (absent and empty
are falsy). -/
def jsOr (a b : Option String) : Option String :=
  match a with
  | some s => if s = "" then b else some s
  | none => b

/-- `a || d` with a string default. -/
def orDefault (a : Option String) (d : String) : String :=
  match a with
  | some s => if s = "" then d else s
  | none => d

/-- An intent's `answer` field: absent/null, a single text block, or an
array of text blocks. -/
inductive AnswerVal where
  | undef
  | str (s : String)
  | arr (l : List String)
deriving DecidableEq

/-- An intent's `route` descriptor (`type` tag plus fields). -/
inductive Route where
  | url (u : Option String)
  | squarePackage (packageId : Option String) (mode : Option String)
  | other
deriving DecidableEq

/-- A `square_booking_links` table entry: a bare URL string or a
mode-keyed map of strings. -/
inductive LinkEntry where
  | str (s : String)
  | modes (l : List (String × String))
deriving DecidableEq

structure Intent where
  id : Option String := none
  intent_id : Option String := none
  name : Option String := none
  triggers : List String := []
  answer : AnswerVal := .undef
  followups : List String := []
  route : Option Route := none
deriving DecidableEq

structure KB where
  businessPhone : Option String := none
  businessWebsite : Option String := none
  squareBookingLinks : List (String × LinkEntry) := []
  intents : List Intent := []
deriving DecidableEq

/-- `scoreIntent` from the source. -/
def scoreIntent (e : RegexEngine) (message : String) (intent : Intent) : Nat :=
  scoreTriggers e message (normChars message.data) intent.triggers

/-- `matched_intent_id` resolution: `intent.id || intent.intent_id ||
intent.name || null`. -/
def resolvedIntentId (i : Intent) : Option String :=
  jsOr i.id (jsOr i.intent_id i.name)

structure BestResult where
  intent : Option Intent
  score : Nat
deriving DecidableEq

/-- The scan step of `findBestIntent`: adopt the intent only on a
strictly greater score. -/
def bestStep (e : RegexEngine) (message : String) (acc : Option Intent × Nat)
    (i : Intent) : Option Intent × Nat :=
  if acc.2 < scoreIntent e message i then (some i, scoreIntent e message i) else acc

/-- `findBestIntent` from the source: scan all intents tracking the
strict maximum, then report no match when the best score is below 2. -/
def findBestIntent (e : RegexEngine) (message : String) (kb : KB) : BestResult :=
  if (kb.intents.foldl (bestStep e message) (none, 0)).1 = none ∨
      (kb.intents.foldl (bestStep e message) (none, 0)).2 < 2 then
    ⟨none, (kb.intents.foldl (bestStep e message) (none, 0)).2⟩
  else
    ⟨(kb.intents.foldl (bestStep e message) (none, 0)).1,
     (kb.intents.foldl (bestStep e message) (none, 0)).2⟩

/-- Fuel-driven scanner for the JS global regex replace
`([^:]\/)\/+` → `$1` used by `normalizeUrl`; the fuel is the input
length, enough because every step consumes at least one character. -/
def nmUrlAux : Nat → List Char → List Char
  | _, [] => []
  | 0, s => s
  | fuel + 1, a :: rest =>
    match rest with
    | [] => [a]
    | b :: rest2 =>
      if a ≠ ':' ∧ b = '/' ∧ rest2.head? = some '/' then
        a :: b :: nmUrlAux fuel (rest2.dropWhile (· = '/'))
      else a :: nmUrlAux fuel rest

/-- `normalizeUrl` from the source: collapse a slash run that follows a
non-colon character and a slash down to that single slash. -/
def normalizeUrl (s : String) : String := ⟨nmUrlAux s.data.length s.data⟩

/-- `buildEscalationReply` from the source. -/
def buildEscalationReply (kb : KB) : String :=
  let phone := orDefault kb.businessPhone "+1-757-759-8454"
  let site := orDefault kb.businessWebsite "https://motiontography.com"
  let contactUrl := normalizeUrl (site ++ "/contact.html")
  "I don't want to guess and give you the wrong info. Please contact Roger directly at "
    ++ phone ++ " (call/text), or use the contact page: " ++ contactUrl

/-- Association-list lookup standing in for JS property access. -/
def lookupStr (l : List (String × String)) (k : String) : Option String :=
  match l with
  | [] => none
  | (a, v) :: rest => if a = k then some v else lookupStr rest k

def lookupEntry (l : List (String × LinkEntry)) (k : String) : Option LinkEntry :=
  match l with
  | [] => none
  | (a, v) :: rest => if a = k then some v else lookupEntry rest k

/-- `Object.values(entry).find(v => typeof v === "string")`: with the
entry modelled as a string-valued map, the first value. -/
def firstModeValue (l : List (String × String)) : Option String :=
  match l with
  | [] => none
  | (_, v) :: _ => some v

/-- `resolveRouteUrl` from the source, with JS truthiness checks on every
field access. -/
def resolveRouteUrl (route : Option Route) (kb : KB) : Option String :=
  match route with
  | none => none
  | some (.url u) =>
    match u with
    | some s => if s = "" then none else some s
    | none => none
  | some .other => none
  | some (.squarePackage pid mode) =>
    match pid with
    | none => none
    | some p =>
      if p = "" then none
      else
        match lookupEntry kb.squareBookingLinks p with
        | none => none
        | some (.str s) => if s = "" then none else some s
        | some (.modes m) =>
          let mk := orDefault mode "studio"
          match lookupStr m mk with
          | some v => if v = "" then firstFallback m else some v
          | none => firstFallback m
where
  /-- The `first || null` fallback on the first string value. -/
  firstFallback (m : List (String × String)) : Option String :=
    match firstModeValue m with
    | some v => if v = "" then none else some v
    | none => none

structure FormattedAnswer where
  reply : String
  followups : List String
  routeUrl : Option String
deriving DecidableEq

/-- `formatIntentAnswer` from the source: arrays are filtered for falsy
entries and joined with a blank line (no trim); single values are
string-coerced and trimmed. -/
def formatIntentAnswer (intent : Intent) (kb : KB) : FormattedAnswer :=
  { reply :=
      match intent.answer with
      | .arr l => String.intercalate "\n\n" (l.filter (fun s => decide (s ≠ "")))
      | .str s => ⟨jsTrim s.data⟩
      | .undef => ""
    followups := intent.followups
    routeUrl := resolveRouteUrl intent.route kb }

/-- Case-insensitive literal chomp: consume `lit` (given lowercase) from
the front of the input, returning the rest. -/
def chompLit : List Char → List Char → Option (List Char)
  | s, [] => some s
  | [], _ :: _ => none
  | c :: s, d :: lit => if lcA c = d then chompLit s lit else none

/-- The `R(oa)?d` tail of the address patterns, after the `R` has been
consumed: greedily try `oad`, then fall back to `d` alone (exactly the
regex backtracking order). -/
def chompOAD : List Char → Option (List Char)
  | o :: a :: d :: rest =>
    if lcA o = 'o' ∧ lcA a = 'a' ∧ lcA d = 'd' then some rest
    else if lcA o = 'd' then some (a :: d :: rest)
    else none
  | o :: rest => if lcA o = 'd' then some rest else none
  | [] => none

/-- Matcher for the mandatory part of `/109\s*Abbey\s*R(oa)?d/i` at the
head of the input: returns the rest after the match. -/
def mand1 (s : List Char) : Option (List Char) :=
  match chompLit s ['1', '0', '9'] with
  | none => none
  | some s1 =>
    match chompLit (s1.dropWhile jsWhitespace) ['a', 'b', 'b', 'e', 'y'] with
    | none => none
    | some s3 =>
      match chompLit (s3.dropWhile jsWhitespace) ['r'] with
      | none => none
      | some s5 => chompOAD s5

/-- Full matcher for pattern 1 (`109\s*Abbey\s*R(oa)?d[^,]*`): the
mandatory part followed by the greedy non-comma tail. -/
def matchA1 (s : List Char) : Option (List Char) :=
  (mand1 s).map fun rest => rest.dropWhile (fun c => decide (c ≠ ','))

/-- Matcher for `/\d+\s+Abbey\s+R(oa)?d/i` at the head of the input. -/
def mand2 (s : List Char) : Option (List Char) :=
  match s with
  | [] => none
  | c :: rest =>
    if isDigitCh c then
      match rest.dropWhile isDigitCh with
      | [] => none
      | c2 :: r2 =>
        if jsWhitespace c2 then
          match chompLit (r2.dropWhile jsWhitespace) ['a', 'b', 'b', 'e', 'y'] with
          | none => none
          | some s3 =>
            match s3 with
            | [] => none
            | c3 :: r3 =>
              if jsWhitespace c3 then
                match chompLit (r3.dropWhile jsWhitespace) ['r'] with
                | none => none
                | some s5 => chompOAD s5
              else none
        else none
    else none

/-- The fixed replacement text of both scrub regexes. -/
def scrubR : List Char := ("Studio in Suffolk, VA").data

/-- Fuel-driven JS `String.replace` with a global regex: scan left to
right, on a match emit the replacement and resume after the match, on a
failure emit one character.  Fuel is the input length; every match
consumes at least one character. -/
def replAux (m : List Char → Option (List Char)) (r : List Char) :
    Nat → List Char → List Char
  | _, [] => []
  | 0, s => s
  | fuel + 1, c :: rest =>
    match m (c :: rest) with
    | some rest2 => r ++ replAux m r fuel rest2
    | none => c :: replAux m r fuel rest

def replaceAll (m : List Char → Option (List Char)) (r : List Char)
    (s : List Char) : List Char :=
  replAux m r s.length s

/-- `scrubAddress` on char lists: the two global replaces in sequence. -/
def scrubChars (s : List Char) : List Char :=
  replaceAll mand2 scrubR (replaceAll matchA1 scrubR s)

/-- `scrubAddress` from the source (the Worker module and the final
safety pass of `server.js` are char-for-char identical); the empty
string is returned unchanged by the `if (!text)` guard. -/
def scrubAddress (s : String) : String :=
  if s = "" then s else ⟨scrubChars s.data⟩

/-- JSON values as produced by `JSON.parse` (numbers are exact
rationals; JSON has no NaN/Infinity literals). -/
inductive Json where
  | null
  | bool (b : Bool)
  | num (q : ℚ)
  | str (s : String)
  | arr (l : List Json)
  | obj (fields : List (String × Json))

/-- JS truthiness on JSON values. -/
def truthy : Json → Bool
  | .null => false
  | .bool b => b
  | .num q => decide (q ≠ 0)
  | .str s => decide (s ≠ "")
  | .arr _ => true
  | .obj _ => true

/-- JS property access `v.k` (undefined, modelled as `none`, off
non-objects and for missing keys). -/
def getField (j : Json) (k : String) : Option Json :=
  match j with
  | .obj fields => lookupField fields k
  | _ => none
where
  lookupField : List (String × Json) → String → Option Json
    | [], _ => none
    | (a, v) :: rest, k => if a = k then some v else lookupField rest k

/-- `v.k` collapsed to a JSON value, with undefined read as falsy
(`getD .null` only feeds truthiness tests and coercions below, for which
JS `undefined` and `null` behave identically). -/
def fieldD (j : Json) (k : String) : Json :=
  (getField j k).getD .null

mutual

/-- JS `String(v)` on the values reachable here.  The flag distinguishes
top-level `String(null) = "null"` from the empty rendering of null array
elements inside `join`.  Rendering of non-integral numbers is the one
simplification (no claim exercises it); everything else follows ECMA
`ToString`. -/
def jsonStrA : Bool → Json → String
  | top, .null => if top then "null" else ""
  | _, .bool b => if b then "true" else "false"
  | _, .num q => if q.den = 1 then toString q.num else toString q
  | _, .str s => s
  | _, .arr l => jsonStrL l
  | _, .obj _ => "[object Object]"

/-- `Array.prototype.join(",")` over the element renderings. -/
def jsonStrL : List Json → String
  | [] => ""
  | [j] => jsonStrA false j
  | j :: rest => jsonStrA false j ++ "," ++ jsonStrL rest

end

/-- JS `String(v)`. -/
def jsToString (j : Json) : String := jsonStrA true j

/-- The record `parseModelResponse` builds from parsed model output. -/
structure ModelResult where
  intent_id : Option Json
  confidence : ℚ
  reply : String
  followups : List Json
  links_shared : List Json
  escalated : Bool
  kb_evidence : List Json

/-- The field coercions of `parseModelResponse`, applied to the parsed
JSON value. -/
def coerceModel (parsed : Json) : ModelResult :=
  { intent_id := let v := fieldD parsed "intent_id"; if truthy v then some v else none
    confidence :=
      match getField parsed "confidence" with
      | some (.num q) => q
      | _ => 0
    reply := let v := fieldD parsed "reply"; if truthy v then jsToString v else ""
    followups :=
      match getField parsed "followups" with
      | some (.arr l) => l
      | _ => []
    links_shared :=
      match getField parsed "links_shared" with
      | some (.arr l) => l
      | _ => []
    escalated := truthy (fieldD parsed "escalated")
    kb_evidence :=
      match getField parsed "kb_evidence" with
      | some (.arr l) => l
      | _ => [] }

/-- `startsWith` on strings via char lists. -/
def startsW (s pre : String) : Bool := leads pre.data s.data

/-- `endsWith` on strings via char lists. -/
def endsW (s suf : String) : Bool := leads suf.data.reverse s.data.reverse

/-- The code-fence stripping of `parseModelResponse`: trim, strip a
leading triple-backtick marker (with or without the `json` tag), strip a
trailing one, trim again. -/
def stripFences (raw : String) : String :=
  let c0 : List Char := jsTrim raw.data
  let c1 :=
    if leads ("```json").data c0 then c0.drop 7
    else if leads ("```").data c0 then c0.drop 3
    else c0
  let c2 := if leads ("```").data.reverse c1.reverse then c1.take (c1.length - 3) else c1
  ⟨jsTrim c2⟩

/-- `parseModelResponse`, parameterized by the platform JSON parser
(`JSON.parse` returning `none` models a thrown SyntaxError): fence
stripping, parse, then defensive coercion; a parse failure is a thrown
error, not a degraded value. -/
def parseModelResponse (parse : String → Option Json) (raw : String) :
    Except String ModelResult :=
  match parse (stripFences raw) with
  | some j => .ok (coerceModel j)
  | none => .error "Failed to parse model JSON"

/-- The response record assembled by the `POST /api/chat` handler of
`server.js` (transcript-logging fields excluded; heuristic string values
appear as JSON strings so that both paths share one shape, exactly as
the dynamically-typed handler mixes them). -/
structure ChatResult where
  reply : String
  followups : List Json
  routeUrl : Option Json
  matchedIntentId : Option Json
  matchScore : ℚ
  usedOpenai : Bool
  escalated : Bool
  kbEvidence : List Json

/-- The heuristic block of the `server.js` handler (`if (!response)`):
intent selection, formatting, empty-reply substitution, escalation. -/
def heuristicOutcome (e : RegexEngine) (message : String) (kb : KB) : ChatResult :=
  match (findBestIntent e message kb).intent with
  | some intent =>
    if (formatIntentAnswer intent kb).reply = "" then
      { reply := buildEscalationReply kb
        followups := []
        routeUrl := none
        matchedIntentId := (resolvedIntentId intent).map .str
        matchScore := (findBestIntent e message kb).score
        usedOpenai := false
        escalated := true
        kbEvidence := [] }
    else
      { reply := (formatIntentAnswer intent kb).reply
        followups := (formatIntentAnswer intent kb).followups.map .str
        routeUrl := ((formatIntentAnswer intent kb).routeUrl).map .str
        matchedIntentId := (resolvedIntentId intent).map .str
        matchScore := (findBestIntent e message kb).score
        usedOpenai := false
        escalated := false
        kbEvidence := [] }
  | none =>
    { reply := buildEscalationReply kb
      followups := []
      routeUrl := none
      matchedIntentId := none
      matchScore := (findBestIntent e message kb).score
      usedOpenai := false
      escalated := true
      kbEvidence := [] }

/-- The final safety pass of the `server.js` handler: scrub the outbound
reply (`scrubAddress` returns the empty string unchanged, mirroring the
`if (response.reply)` truthiness guard). -/
def applyFinalScrub (r : ChatResult) : ChatResult :=
  { r with reply := scrubAddress r.reply }

/-- The `POST /api/chat` handler of `server.js` after input validation,
parameterized by the model-call outcome: `modelOutcome = none` models a
thrown/failed `openAiRouteAndAnswer` (network error, transport error, or
parse failure — all reach the handler as the same exception), `some a`
a successful, already-scrubbed parsed result adopted directly
(`usedModel = true`), after which the heuristic block is skipped. -/
def serverChat (e : RegexEngine) (openaiConfigured : Bool)
    (modelOutcome : Option ModelResult) (message : String) (kb : KB) : ChatResult :=
  applyFinalScrub
    (match openaiConfigured, modelOutcome with
     | true, some a =>
       { reply := a.reply
         followups := a.followups
         routeUrl := a.links_shared.head?
         matchedIntentId := a.intent_id
         matchScore := a.confidence
         usedOpenai := true
         escalated := a.escalated
         kbEvidence := a.kb_evidence }
     | true, none => heuristicOutcome e message kb
     | false, _ => heuristicOutcome e message kb)

/-- The Worker variant's heuristic fallback block
(`src/unnamed/part_001`, `handleChat` lines 336-352): identical
selection and substitution logic to the Express handler's block. -/
def workerHeuristic (e : RegexEngine) (message : String) (kb : KB) : ChatResult :=
  heuristicOutcome e message kb

/-- The Worker variant's `handleChat` (`src/unnamed/part_001`) after
input validation: the model path replies are scrubbed inside
`openAiRouteAndAnswer` (modelled by `modelOutcome` being post-scrub),
but no final scrub pass exists in this handler, so the heuristic branch
returns its reply with no redaction applied. -/
def workerChat (e : RegexEngine) (hasApiKey : Bool)
    (modelOutcome : Option ModelResult) (message : String) (kb : KB) : ChatResult :=
  match hasApiKey, modelOutcome with
  | true, some a =>
    { reply := a.reply
      followups := a.followups
      routeUrl := none
      matchedIntentId := a.intent_id
      matchScore := a.confidence
      usedOpenai := true
      escalated := a.escalated
      kbEvidence := a.kb_evidence }
  | true, none => workerHeuristic e message kb
  | false, _ => workerHeuristic e message kb

/-- The maximum heuristic score over the KB's intents (0 for an empty
KB), the "best score" the spec speaks about. -/
def bestScore (e : RegexEngine) (message : String) (kb : KB) : Nat :=
  kb.intents.foldl (fun m i => max m (scoreIntent e message i)) 0

/-- A regex engine whose compilation always fails; used to instantiate
witnesses on literal-only knowledge bases. -/
def nullEngine : RegexEngine := ⟨fun _ _ => none⟩

/-- One-intent KB whose single two-word literal trigger gives the
boundary score 1 for the message `"wear what"` (partial-word bonus only,
no substring hit). -/
def kbBoundaryOne : KB := { intents := [{ triggers := ["what wear"] }] }

def helloIntent : Intent := { id := some "greet", triggers := ["hello"], answer := .str "Hi there" }

/-- One-intent KB whose literal trigger gives exactly score 2 for the
message `"hello"`. -/
def kbBoundaryTwo : KB := { intents := [helloIntent] }

def secondIntent : Intent := { id := some "second", triggers := ["hello"] }

/-- Two intents attaining the same maximal score 2 for `"hello"`. -/
def kbTie : KB := { intents := [helloIntent, secondIntent] }

def emptyAnswerIntent : Intent := { id := some "empty", triggers := ["hello"], answer := .str "" }

/-- One-intent KB whose intent scores above threshold but resolves to an
empty reply. -/
def kbEmptyAnswer : KB := { intents := [emptyAnswerIntent] }

def wsArrIntent : Intent := { id := some "ws", triggers := ["hi"], answer := .arr [" "] }

/-- One-intent KB whose answer array holds a single whitespace-only
block. -/
def kbWsArr : KB := { intents := [wsArrIntent] }

def wsStrIntent : Intent := { id := some "wss", triggers := ["hi"], answer := .str " " }

/-- An engine for C6's witness: compiles exactly the body `gift` with
flag `i` to a case-insensitive containment test, failing on everything
else. -/
def giftEngine : RegexEngine :=
  ⟨fun body flags =>
    if body = ("gift").data ∧ flags = ("i").data then
      some (fun m => occursIn (("gift").data) (m.data.map lcA))
    else none⟩

/-- The JSON text of the C8 counterexample model reply. -/
def cexRaw : String := "\x7b\"intent_id\": 7, \"reply\": 42, \"escalated\": \"yes\"\x7d"

/-- Its JSON denotation (the value `JSON.parse` returns on `cexRaw`). -/
def cexJson : Json :=
  .obj [("intent_id", .num 7), ("reply", .num 42), ("escalated", .str "yes")]

/-- A parse oracle agreeing with `JSON.parse` on the counterexample
text. -/
def cexParse : String → Option Json :=
  fun s => if s = cexRaw then some cexJson else none

def leakIntent : Intent :=
  { id := some "studio_loc", triggers := ["studio"],
    answer := .str "Our studio is at 109 Abbey Road, Suite B" }

/-- A KB whose matched answer contains the protected address. -/
def kbLeak : KB := { intents := [leakIntent] }

/-- `w` occurs contiguously inside `s`. -/
def SubAt (w s : List Char) : Prop := ∃ a b, s = a ++ w ++ b

/-- `l` spells the lowercase literal `lit` up to ASCII case. -/
def CiTok (l lit : List Char) : Prop := l.map lcA = lit

/-- A run of JS whitespace. -/
def SpaceRun (l : List Char) : Prop := ∀ c ∈ l, jsWhitespace c = true

/-- The language of the mandatory part of scrub pattern 1:
`109`, optional whitespace, `abbey`, optional whitespace, `rd`/`road`,
all case-insensitive. -/
def Addr1 (w : List Char) : Prop :=
  ∃ a s1 b s2 e, w = a ++ s1 ++ b ++ s2 ++ e ∧
    CiTok a ("109").data ∧ SpaceRun s1 ∧ CiTok b ("abbey").data ∧ SpaceRun s2 ∧
    (CiTok e ("rd").data ∨ CiTok e ("road").data)

/-- The language of scrub pattern 2: digits, mandatory whitespace,
`abbey`, mandatory whitespace, `rd`/`road`, case-insensitive. -/
def Addr2 (w : List Char) : Prop :=
  ∃ d s1 b s2 e, w = d ++ s1 ++ b ++ s2 ++ e ∧
    d ≠ [] ∧ (∀ c ∈ d, isDigitCh c = true) ∧
    s1 ≠ [] ∧ SpaceRun s1 ∧ CiTok b ("abbey").data ∧
    s2 ≠ [] ∧ SpaceRun s2 ∧
    (CiTok e ("rd").data ∨ CiTok e ("road").data)

/-- The characters that can appear anywhere in an `Addr1`/`Addr2` word. -/
def GoodCh (c : Char) : Bool :=
  jsWhitespace c || isDigitCh c ||
  (lcA c = 'a' || lcA c = 'b' || lcA c = 'e' || lcA c = 'y' ||
   lcA c = 'r' || lcA c = 'o' || lcA c = 'd')

theorem lcA_toNat (c : Char) :
    (lcA c).toNat = if 65 ≤ c.toNat ∧ c.toNat ≤ 90 then c.toNat + 32 else c.toNat := by
  unfold lcA
  split
  · next h =>
    have hv : (c.toNat + 32).isValidChar := by
      left
      have := h.2
      omega
    rw [Char.ofNat, dif_pos hv]
    rfl
  · rfl

theorem toNat_inj {c d : Char} (h : c.toNat = d.toNat) : c = d := by
  apply Char.ext
  exact UInt32.ext h

theorem jsWhitespace_lcA {c : Char} (h : jsWhitespace c = true) : lcA c = c := by
  unfold lcA
  rw [if_neg]
  unfold jsWhitespace at h
  simp only [Bool.or_eq_true, decide_eq_true_eq, Bool.and_eq_true] at h
  rintro ⟨h1, h2⟩
  omega

theorem ws_false_of_lcA {c d : Char} (h : lcA c = d) (hd : jsWhitespace d = false) :
    jsWhitespace c = false := by
  by_contra hw
  have hw : jsWhitespace c = true := by
    cases hc : jsWhitespace c
    · exact absurd hc hw
    · rfl
  rw [jsWhitespace_lcA hw] at h
  subst h
  rw [hw] at hd
  cases hd

theorem leads_iff {n s : List Char} : leads n s = true ↔ ∃ t, s = n ++ t := by
  induction n generalizing s with
  | nil => simp [leads]
  | cons a as ih =>
    cases s with
    | nil => simp [leads]
    | cons b bs =>
      simp only [leads, Bool.and_eq_true, decide_eq_true_eq, ih, List.cons_append,
        List.cons.injEq]
      constructor
      · rintro ⟨rfl, t, rfl⟩
        exact ⟨t, rfl, rfl⟩
      · rintro ⟨t, rfl, rfl⟩
        exact ⟨rfl, t, rfl⟩

theorem occursIn_iff {n s : List Char} : occursIn n s = true ↔ ∃ a b, s = a ++ n ++ b := by
  induction s with
  | nil =>
    simp only [occursIn, leads_iff]
    constructor
    · rintro ⟨t, ht⟩
      exact ⟨[], t, by simp [ht.symm]⟩
    · rintro ⟨a, b, hab⟩
      have ha : a = [] := by
        cases a with
        | nil => rfl
        | cons x xs => simp at hab
      subst ha
      exact ⟨b, by simpa using hab⟩
  | cons h t ih =>
    simp only [occursIn, Bool.or_eq_true, leads_iff, ih]
    constructor
    · rintro (⟨u, hu⟩ | ⟨a, b, hab⟩)
      · exact ⟨[], u, by simp [hu]⟩
      · exact ⟨h :: a, b, by simp [hab]⟩
    · rintro ⟨a, b, hab⟩
      cases a with
      | nil =>
        left
        exact ⟨b, by simpa using hab⟩
      | cons x xs =>
        right
        simp only [List.cons_append, List.cons.injEq] at hab
        exact ⟨xs, b, hab.2⟩

theorem lastIdxOf_nonneg_iff {c : Char} {l : List Char} :
    0 ≤ lastIdxOf c l ↔ c ∈ l := by
  induction l with
  | nil => simp [lastIdxOf]
  | cons a rest ih =>
    simp only [lastIdxOf, List.mem_cons]
    split
    · next h => simp [ih.mp h, show (0 : Int) ≤ lastIdxOf c rest + 1 from by omega]
    · next h =>
      split
      · next ha => simp [ha]
      · next ha =>
        constructor
        · intro hx
          omega
        · rintro (rfl | hx)
          · exact absurd rfl ha
          · exact absurd (ih.mpr hx) h

theorem lastIdxOf_pos_iff {c a : Char} {rest : List Char} :
    0 < lastIdxOf c (a :: rest) ↔ c ∈ rest := by
  rw [show lastIdxOf c (a :: rest) =
      (let r := lastIdxOf c rest
       if 0 ≤ r then r + 1 else if a = c then 0 else -1) from rfl]
  simp only []
  split
  · next h => simp [lastIdxOf_nonneg_iff.mp h, show 0 < lastIdxOf c rest + 1 from by omega]
  · next h =>
    have : c ∉ rest := fun hx => h (lastIdxOf_nonneg_iff.mpr hx)
    split <;> simp [this]

theorem ceil07_eq_ceil (n : Nat) : ceil07 n = ⌈(7 * n : ℚ) / 10⌉₊ := by
  have hdm := Nat.div_add_mod (7 * n + 9) 10
  have hlt : (7 * n + 9) % 10 < 10 := Nat.mod_lt _ (by omega)
  apply le_antisymm
  · rcases Nat.eq_zero_or_pos (ceil07 n) with h0 | hpos
    · simp [h0]
    · have hk : ceil07 n - 1 < ⌈(7 * n : ℚ) / 10⌉₊ := by
        rw [Nat.lt_ceil, lt_div_iff₀ (by norm_num : (0:ℚ) < 10)]
        have h1 : 10 * (ceil07 n - 1) < 7 * n := by
          unfold ceil07 at hpos ⊢
          omega
        have h2 : ((10 * (ceil07 n - 1) : ℕ) : ℚ) < ((7 * n : ℕ) : ℚ) := by
          exact_mod_cast h1
        push_cast at h2
        linarith
      omega
  · rw [Nat.ceil_le, div_le_iff₀ (by norm_num : (0:ℚ) < 10)]
    have h1 : 7 * n ≤ 10 * ceil07 n := by
      unfold ceil07
      omega
    have h2 : ((7 * n : ℕ) : ℚ) ≤ ((10 * ceil07 n : ℕ) : ℚ) := by
      exact_mod_cast h1
    push_cast at h2
    linarith

theorem bestStep_snd (e : RegexEngine) (msg : String) (acc : Option Intent × Nat)
    (i : Intent) : (bestStep e msg acc i).2 = max acc.2 (scoreIntent e msg i) := by
  unfold bestStep
  split
  · next h => simp [Nat.max_eq_right (Nat.le_of_lt h)]
  · next h => simp [Nat.max_eq_left (Nat.le_of_not_lt h)]

theorem bestFold_snd (e : RegexEngine) (msg : String) :
    ∀ (l : List Intent) (acc : Option Intent × Nat),
      (l.foldl (bestStep e msg) acc).2 =
        l.foldl (fun m i => max m (scoreIntent e msg i)) acc.2 := by
  intro l
  induction l with
  | nil => intro acc; rfl
  | cons x xs ih =>
    intro acc
    simp only [List.foldl_cons]
    rw [ih, bestStep_snd]

theorem bestFold_some (e : RegexEngine) (msg : String) :
    ∀ (l : List Intent) (acc : Option Intent × Nat) (b : Intent),
      acc.1 = some b → ∃ b2, (l.foldl (bestStep e msg) acc).1 = some b2 := by
  intro l
  induction l with
  | nil => intro acc b h; exact ⟨b, h⟩
  | cons x xs ih =>
    intro acc b h
    rw [List.foldl_cons]
    by_cases hu : acc.2 < scoreIntent e msg x
    · have hstep : bestStep e msg acc x = (some x, scoreIntent e msg x) := by
        unfold bestStep
        rw [if_pos hu]
      rw [hstep]
      exact ih _ x rfl
    · have hstep : bestStep e msg acc x = acc := by
        unfold bestStep
        rw [if_neg hu]
      rw [hstep]
      exact ih _ b h

theorem bestFold_none (e : RegexEngine) (msg : String) :
    ∀ (l : List Intent) (acc : Option Intent × Nat),
      (l.foldl (bestStep e msg) acc).1 = none → l.foldl (bestStep e msg) acc = acc := by
  intro l
  induction l with
  | nil => intro acc _; rfl
  | cons x xs ih =>
    intro acc h
    simp only [List.foldl_cons] at h ⊢
    by_cases hu : acc.2 < scoreIntent e msg x
    · exfalso
      have hstep : (bestStep e msg acc x).1 = some x := by
        unfold bestStep
        rw [if_pos hu]
      obtain ⟨b2, hb2⟩ := bestFold_some e msg xs (bestStep e msg acc x) x hstep
      rw [hb2] at h
      cases h
    · have hstep : bestStep e msg acc x = acc := by
        unfold bestStep
        rw [if_neg hu]
      rw [hstep] at h ⊢
      exact ih acc h

/-- Full behaviour of the `findBestIntent` scan from an arbitrary
accumulator: either nothing ever exceeded the accumulator, or the result
is the first intent to reach the final maximum, every earlier intent
scoring strictly less and every later one at most equal. -/
theorem bestFold_spec (e : RegexEngine) (msg : String) :
    ∀ (l : List Intent) (acc : Option Intent × Nat),
      (l.foldl (bestStep e msg) acc = acc ∧ ∀ i ∈ l, scoreIntent e msg i ≤ acc.2) ∨
      (∃ l1 b l2, l = l1 ++ b :: l2 ∧
        l.foldl (bestStep e msg) acc = (some b, scoreIntent e msg b) ∧
        acc.2 < scoreIntent e msg b ∧
        (∀ i ∈ l1, scoreIntent e msg i < scoreIntent e msg b) ∧
        (∀ i ∈ l2, scoreIntent e msg i ≤ scoreIntent e msg b)) := by
  intro l
  induction l with
  | nil => intro acc; exact Or.inl ⟨rfl, by simp⟩
  | cons x xs ih =>
    intro acc
    simp only [List.foldl_cons]
    by_cases hu : acc.2 < scoreIntent e msg x
    · have hstep : bestStep e msg acc x = (some x, scoreIntent e msg x) := by
        unfold bestStep
        rw [if_pos hu]
      rw [hstep]
      rcases ih (some x, scoreIntent e msg x) with ⟨heq, hle⟩ | ⟨l1, b, l2, hsplit, hres, hacc, h1, h2⟩
      · right
        refine ⟨[], x, xs, rfl, heq, hu, by simp, ?_⟩
        intro i hi
        exact hle i hi
      · right
        refine ⟨x :: l1, b, l2, by rw [hsplit]; rfl, hres, lt_trans hu hacc, ?_, h2⟩
        intro i hi
        rcases List.mem_cons.mp hi with rfl | hi
        · exact hacc
        · exact h1 i hi
    · have hstep : bestStep e msg acc x = acc := by
        unfold bestStep
        rw [if_neg hu]
      rw [hstep]
      rcases ih acc with ⟨heq, hle⟩ | ⟨l1, b, l2, hsplit, hres, hacc, h1, h2⟩
      · left
        refine ⟨heq, ?_⟩
        intro i hi
        rcases List.mem_cons.mp hi with rfl | hi
        · exact Nat.le_of_not_lt hu
        · exact hle i hi
      · right
        refine ⟨x :: l1, b, l2, by rw [hsplit]; rfl, hres, hacc, ?_, h2⟩
        intro i hi
        rcases List.mem_cons.mp hi with rfl | hi
        · exact lt_of_le_of_lt (Nat.le_of_not_lt hu) hacc
        · exact h1 i hi

/-- C1: the Intent Selector reports no match exactly when the best
score is strictly below 2; the best score is returned in either case;
at the boundary, a best score of exactly 1 escalates and an exact
maximal score of 2 matches. -/
theorem c1_threshold_rule (e : RegexEngine) (message : String) (kb : KB) :
    (findBestIntent e message kb).score = bestScore e message kb ∧
    ((findBestIntent e message kb).intent = none ↔ bestScore e message kb < 2) ∧
    findBestIntent nullEngine "wear what" kbBoundaryOne = ⟨none, 1⟩ ∧
    findBestIntent nullEngine "hello" kbBoundaryTwo = ⟨some helloIntent, 2⟩ := by
  have hsnd : (kb.intents.foldl (bestStep e message) (none, 0)).2 = bestScore e message kb :=
    bestFold_snd e message kb.intents (none, 0)
  have h1 : findBestIntent e message kb =
      if (kb.intents.foldl (bestStep e message) (none, 0)).1 = none ∨
          (kb.intents.foldl (bestStep e message) (none, 0)).2 < 2 then
        ⟨none, (kb.intents.foldl (bestStep e message) (none, 0)).2⟩
      else
        ⟨(kb.intents.foldl (bestStep e message) (none, 0)).1,
         (kb.intents.foldl (bestStep e message) (none, 0)).2⟩ := rfl
  refine ⟨?_, ?_, by decide, by decide⟩
  · rw [h1]
    split <;> exact hsnd
  · by_cases hc : (kb.intents.foldl (bestStep e message) (none, 0)).1 = none ∨
        (kb.intents.foldl (bestStep e message) (none, 0)).2 < 2
    · rw [h1, if_pos hc]
      simp only [true_iff]
      rcases hc with hc | hc
      · have hacc := bestFold_none e message kb.intents (none, 0) hc
        rw [← hsnd, hacc]
        omega
      · rw [← hsnd]
        exact hc
    · rw [h1, if_neg hc]
      push_neg at hc
      constructor
      · intro h
        exact absurd h hc.1
      · intro h
        rw [← hsnd] at h
        omega

/-- C4: whenever the Intent Selector returns an intent, it is the first
intent in the KB sequence to attain the maximum: every earlier intent
scores strictly less, and every later intent scores at most equal, the
strictly-greater comparison never letting a later tie displace it. -/
theorem c4_first_wins (e : RegexEngine) (msg : String) (kb : KB) (b : Intent)
    (h : (findBestIntent e msg kb).intent = some b) :
    ∃ l1 l2, kb.intents = l1 ++ b :: l2 ∧
      (findBestIntent e msg kb).score = scoreIntent e msg b ∧
      (∀ i ∈ l1, scoreIntent e msg i < scoreIntent e msg b) ∧
      (∀ i ∈ l2, scoreIntent e msg i ≤ scoreIntent e msg b) := by
  have h1 : findBestIntent e msg kb =
      if (kb.intents.foldl (bestStep e msg) (none, 0)).1 = none ∨
          (kb.intents.foldl (bestStep e msg) (none, 0)).2 < 2 then
        ⟨none, (kb.intents.foldl (bestStep e msg) (none, 0)).2⟩
      else
        ⟨(kb.intents.foldl (bestStep e msg) (none, 0)).1,
         (kb.intents.foldl (bestStep e msg) (none, 0)).2⟩ := rfl
  by_cases hc : (kb.intents.foldl (bestStep e msg) (none, 0)).1 = none ∨
      (kb.intents.foldl (bestStep e msg) (none, 0)).2 < 2
  · rw [h1, if_pos hc] at h
    cases h
  · rw [h1, if_neg hc] at h ⊢
    simp only at h ⊢
    rcases bestFold_spec e msg kb.intents (none, 0) with ⟨heq, _⟩ | ⟨l1, b2, l2, hsplit, hfold, _, hlt1, hle2⟩
    · rw [heq] at h
      cases h
    · rw [hfold] at h ⊢
      have hb : b2 = b := by simpa using h
      subst hb
      exact ⟨l1, l2, hsplit, rfl, hlt1, hle2⟩

/-- C4 witness: the KB with two equally-scoring intents selects the
first. -/
theorem c4_first_wins_witness :
    (findBestIntent nullEngine "hello" kbTie).intent = some helloIntent ∧
    ∃ l1 l2, kbTie.intents = l1 ++ helloIntent :: l2 ∧
      (findBestIntent nullEngine "hello" kbTie).score = scoreIntent nullEngine "hello" helloIntent ∧
      (∀ i ∈ l1, scoreIntent nullEngine "hello" i < scoreIntent nullEngine "hello" helloIntent) ∧
      (∀ i ∈ l2, scoreIntent nullEngine "hello" i ≤ scoreIntent nullEngine "hello" helloIntent) :=
  ⟨by decide, c4_first_wins nullEngine "hello" kbTie helloIntent (by decide)⟩

theorem heuristicOutcome_usedOpenai (e : RegexEngine) (msg : String) (kb : KB) :
    (heuristicOutcome e msg kb).usedOpenai = false := by
  unfold heuristicOutcome
  cases (findBestIntent e msg kb).intent with
  | none => rfl
  | some intent =>
    simp only []
    split <;> rfl

/-- C3: when a model invoker is configured but fails, the handler
swallows the failure and the outcome is identical, field for field, to
what the heuristic-only handler produces, with `usedModel = false`. -/
theorem c3_model_failure_fallback (e : RegexEngine) (msg : String) (kb : KB) :
    serverChat e true none msg kb = serverChat e false none msg kb ∧
    (serverChat e true none msg kb).usedOpenai = false := by
  constructor
  · rfl
  · show (applyFinalScrub (heuristicOutcome e msg kb)).usedOpenai = false
    unfold applyFinalScrub
    exact heuristicOutcome_usedOpenai e msg kb

/-- C7: a matched intent whose formatted reply is empty is replaced by
the Escalation Builder's output with empty followups, no route URL and
`escalated = true`; the empty reply never reaches the user.  (The reply
equals the escalation text, passed through the unconditional outbound
scrub that every reply receives.) -/
theorem c7_empty_reply_substitution (e : RegexEngine) (msg : String) (kb : KB)
    (intent : Intent) (hsel : (findBestIntent e msg kb).intent = some intent)
    (hempty : (formatIntentAnswer intent kb).reply = "") :
    serverChat e false none msg kb =
      { reply := scrubAddress (buildEscalationReply kb)
        followups := []
        routeUrl := none
        matchedIntentId := (resolvedIntentId intent).map .str
        matchScore := (findBestIntent e msg kb).score
        usedOpenai := false
        escalated := true
        kbEvidence := [] } := by
  show applyFinalScrub (heuristicOutcome e msg kb) = _
  unfold heuristicOutcome
  rw [hsel]
  simp only [hempty, if_pos rfl]
  rfl

/-- C7 witness: the empty-answer intent at score 2 yields the escalation
record. -/
theorem c7_empty_reply_substitution_witness :
    (findBestIntent nullEngine "hello" kbEmptyAnswer).intent = some emptyAnswerIntent ∧
    (formatIntentAnswer emptyAnswerIntent kbEmptyAnswer).reply = "" ∧
    serverChat nullEngine false none "hello" kbEmptyAnswer =
      { reply := scrubAddress (buildEscalationReply kbEmptyAnswer)
        followups := []
        routeUrl := none
        matchedIntentId := (resolvedIntentId emptyAnswerIntent).map .str
        matchScore := (findBestIntent nullEngine "hello" kbEmptyAnswer).score
        usedOpenai := false
        escalated := true
        kbEvidence := [] } :=
  ⟨by decide, by decide,
    c7_empty_reply_substitution nullEngine "hello" kbEmptyAnswer emptyAnswerIntent
      (by decide) (by decide)⟩

/-- C10: a single-string answer is trimmed before the emptiness check,
so a whitespace-only string answer formats to the empty reply (and hence
triggers the escalation substitution); an array answer is only filtered
for empty entries and joined untrimmed, so the array `[" "]` reaches the
user as a non-empty whitespace reply with `escalated = false`. -/
theorem c10_array_answer_untrimmed (kb : KB) (i : Intent) (s : String)
    (hans : i.answer = .str s) (hws : ∀ c ∈ s.data, jsWhitespace c = true) :
    (formatIntentAnswer i kb).reply = "" ∧
    serverChat nullEngine false none "hi" kbWsArr =
      { reply := " "
        followups := []
        routeUrl := none
        matchedIntentId := some (.str "ws")
        matchScore := 2
        usedOpenai := false
        escalated := false
        kbEvidence := [] } := by
  refine ⟨?_, by rfl⟩
  unfold formatIntentAnswer
  rw [hans]
  simp only []
  have h1 : s.data.dropWhile jsWhitespace = [] := List.dropWhile_eq_nil_iff.mpr hws
  show String.mk (jsTrim s.data) = ""
  unfold jsTrim
  rw [h1]
  rfl

/-- C10 witness: instantiating the theorem at the whitespace-only string
answer. -/
theorem c10_array_answer_untrimmed_witness :
    ((wsStrIntent.answer = AnswerVal.str " ") ∧ ∀ c ∈ (" ").data, jsWhitespace c = true) ∧
    (formatIntentAnswer wsStrIntent kbWsArr).reply = "" ∧
    serverChat nullEngine false none "hi" kbWsArr =
      { reply := " "
        followups := []
        routeUrl := none
        matchedIntentId := some (.str "ws")
        matchScore := 2
        usedOpenai := false
        escalated := false
        kbEvidence := [] } :=
  ⟨⟨rfl, by decide⟩,
    c10_array_answer_untrimmed kbWsArr wsStrIntent " " rfl (by decide)⟩

/-- Sequential bonus accumulation equals the independent sum of parts. -/
theorem sumSplit (a : Nat) (P Q : Prop) [Decidable P] [Decidable Q] :
    (if P then (if Q then a + 1 else a) else a) = a + (if P ∧ Q then 1 else 0) := by
  by_cases hp : P
  · by_cases hq : Q <;> simp [hp, hq]
  · simp [hp]

/-- C5: for a literal (non-pattern) trigger the contribution is the sum
of two independent parts — 2 for a normalized-substring hit and 1 for
the partial-word bonus when at least `ceil(0.7 × word count)` of a
multi-word trigger's words occur — and a trigger that normalizes to
empty contributes 0.  The bonus threshold computed by the code equals
the exact rational ceiling of `0.7` times the word count. -/
theorem c5_literal_scoring (e : RegexEngine) (message t : String)
    (hreg : isRegexTrigger t = false) :
    (normChars t.data = [] → triggerScore e message (normChars message.data) t = 0) ∧
    (normChars t.data ≠ [] →
      triggerScore e message (normChars message.data) t =
        (if occursIn (normChars t.data) (normChars message.data) then 2 else 0) +
        (if 2 ≤ ((splitSp (normChars t.data)).filter (fun w => decide (w ≠ []))).length ∧
            ceil07 ((splitSp (normChars t.data)).filter (fun w => decide (w ≠ []))).length ≤
              (((splitSp (normChars t.data)).filter (fun w => decide (w ≠ []))).filter
                (fun w => occursIn w (normChars message.data))).length
         then 1 else 0)) ∧
    (∀ n : Nat, ceil07 n = ⌈(7 / 10 : ℚ) * n⌉₊) := by
  refine ⟨?_, ?_, ?_⟩
  · intro hnil
    unfold triggerScore
    split
    · rfl
    · rw [if_neg (by rw [hreg]; exact Bool.false_ne_true)]
      rw [if_pos hnil]
  · intro hne
    unfold triggerScore
    split
    · next ht =>
      exfalso
      apply hne
      rw [ht]
      rfl
    · rw [if_neg (by rw [hreg]; exact Bool.false_ne_true), if_neg hne]
      dsimp only []
      exact sumSplit _ _ _
  · intro n
    rw [ceil07_eq_ceil]
    congr 1
    ring

/-- C5 witness: the two-word trigger `"what wear"` against the message
`"wear what"` earns the partial-word bonus only (both words occur but
the phrase is not a substring), while `"hello"` inside `"oh hello
there"` earns the substring part only. -/
theorem c5_literal_scoring_witness :
    isRegexTrigger "what wear" = false ∧
    normChars ("what wear").data ≠ [] ∧
    triggerScore nullEngine "wear what"
      (normChars ("wear what").data) "what wear" = 1 ∧
    triggerScore nullEngine "oh hello there"
      (normChars ("oh hello there").data) "hello" = 2 ∧
    ceil07 3 = ⌈(7 / 10 : ℚ) * 3⌉₊ :=
  ⟨by decide, by decide, by decide, by decide,
    (c5_literal_scoring nullEngine "x" "what wear" (by decide)).2.2 3⟩

/-- C6: a trigger is pattern-form exactly when it starts with `/` and a
second `/` occurs later; a pattern trigger contributes 3 when its
compiled regex accepts the raw message, 0 when it rejects it, and 0 when
compilation fails (the failure never escaping the scorer, which is total
on such triggers). -/
theorem c6_pattern_triggers :
    (∀ t : String, isRegexTrigger t = true ↔ ∃ r, t.data = '/' :: r ∧ '/' ∈ r) ∧
    (∀ (e : RegexEngine) (message : String) (msg : List Char) (t : String),
      isRegexTrigger t = true →
      triggerScore e message msg t =
        match e.compile (regexBody t) (regexFlags t) with
        | none => 0
        | some test => if test message then 3 else 0) := by
  constructor
  · intro t
    unfold isRegexTrigger
    cases ht : t.data with
    | nil => simp [leads]
    | cons a rest =>
      rw [Bool.and_eq_true]
      constructor
      · rintro ⟨h1, h2⟩
        have ha : a = '/' := by
          simp [leads] at h1
          exact h1.symm
        subst ha
        have h2 : 0 < lastIdxOf '/' ('/' :: rest) := by
          simpa using h2
        exact ⟨rest, rfl, lastIdxOf_pos_iff.mp h2⟩
      · rintro ⟨r, hr, hmem⟩
        rw [List.cons.injEq] at hr
        obtain ⟨ha, hrest⟩ := hr
        subst ha
        subst hrest
        refine ⟨leads_iff.mpr ⟨rest, rfl⟩, ?_⟩
        simpa using lastIdxOf_pos_iff.mpr hmem
  · intro e message msg t hreg
    unfold triggerScore
    have ht : t ≠ "" := by
      intro h
      rw [h] at hreg
      cases hreg
    rw [if_neg ht, if_pos hreg]

/-- C6 witness: `/gift/i` is pattern-form, scores 3 on a message the
compiled regex accepts, and a trigger whose pattern the engine rejects
at compile time scores 0. -/
theorem c6_pattern_triggers_witness :
    (isRegexTrigger "/gift/i" = true ↔ ∃ r, ("/gift/i").data = '/' :: r ∧ '/' ∈ r) ∧
    isRegexTrigger "/gift/i" = true ∧
    triggerScore giftEngine "Do you have GIFT cards?" [] "/gift/i" = 3 ∧
    triggerScore giftEngine "anything" [] "/bad(/x" = 0 := by
  refine ⟨c6_pattern_triggers.1 "/gift/i", by decide, ?_, ?_⟩
  · rw [c6_pattern_triggers.2 giftEngine "Do you have GIFT cards?" [] "/gift/i" (by decide)]
    decide
  · rw [c6_pattern_triggers.2 giftEngine "anything" [] "/bad(/x" (by decide)]
    decide

/-- C8 counterexample: on a reply that parses, the validator does not
coerce a truthy non-string `intent_id` to absent, nor a truthy non-text
`reply` to empty text, nor a truthy non-boolean `escalated` to false —
it keeps the id, stringifies the reply (`42` → `"42"`), and takes the
truthiness of `escalated` (`"yes"` → `true`). -/
theorem c8_coercion_counterexample :
    parseModelResponse cexParse cexRaw =
      .ok { intent_id := some (.num 7)
            confidence := 0
            reply := "42"
            followups := []
            links_shared := []
            escalated := true
            kb_evidence := [] } := by
  rfl

/-- C8 as amended: every parsed reply yields a fully-populated record in
which a falsy or missing `intent_id` is absent, a non-numeric
`confidence` is 0, a falsy `reply` is empty while a truthy non-text one
is string-coerced, non-sequence `followups`/`links_shared`/`kb_evidence`
are empty sequences, and `escalated` is the JS truthiness of the field;
a text that fails to parse is a hard error of the model path. -/
theorem c8_validator_coercions :
    (∀ (parse : String → Option Json) (raw : String) (j : Json),
      parse (stripFences raw) = some j →
      parseModelResponse parse raw = .ok (coerceModel j)) ∧
    (∀ j : Json, truthy (fieldD j "intent_id") = false → (coerceModel j).intent_id = none) ∧
    (∀ j v, getField j "intent_id" = some v → truthy v = true →
      (coerceModel j).intent_id = some v) ∧
    (∀ j : Json, (∀ q : ℚ, getField j "confidence" ≠ some (.num q)) →
      (coerceModel j).confidence = 0) ∧
    (∀ j : Json, truthy (fieldD j "reply") = false → (coerceModel j).reply = "") ∧
    (∀ j v, getField j "reply" = some v → truthy v = true →
      (coerceModel j).reply = jsToString v) ∧
    (∀ j : Json, (∀ l, getField j "followups" ≠ some (.arr l)) →
      (coerceModel j).followups = []) ∧
    (∀ j : Json, (∀ l, getField j "links_shared" ≠ some (.arr l)) →
      (coerceModel j).links_shared = []) ∧
    (∀ j : Json, (∀ l, getField j "kb_evidence" ≠ some (.arr l)) →
      (coerceModel j).kb_evidence = []) ∧
    (∀ j : Json, (coerceModel j).escalated = truthy (fieldD j "escalated")) ∧
    (∀ (parse : String → Option Json) (raw : String),
      parse (stripFences raw) = none →
      parseModelResponse parse raw = .error "Failed to parse model JSON") := by
  refine ⟨?_, ?_, ?_, ?_, ?_, ?_, ?_, ?_, ?_, ?_, ?_⟩
  · intro parse raw j h
    unfold parseModelResponse
    rw [h]
  · intro j h
    unfold coerceModel
    simp only [h]
    rfl
  · intro j v hv ht
    unfold coerceModel fieldD
    simp only [hv, Option.getD_some, ht, if_pos]
  · intro j h
    unfold coerceModel
    cases hc : getField j "confidence" with
    | none => rfl
    | some v =>
      cases v with
      | num q => exact absurd hc (h q)
      | null => rfl
      | bool b => rfl
      | str s2 => rfl
      | arr l => rfl
      | obj f => rfl
  · intro j h
    unfold coerceModel
    simp only [h]
    rfl
  · intro j v hv ht
    unfold coerceModel fieldD
    simp only [hv, Option.getD_some, ht, if_pos]
  · intro j h
    unfold coerceModel
    cases hc : getField j "followups" with
    | none => rfl
    | some v =>
      cases v with
      | arr l => exact absurd hc (h l)
      | null => rfl
      | bool b => rfl
      | str s2 => rfl
      | num q => rfl
      | obj f => rfl
  · intro j h
    unfold coerceModel
    cases hc : getField j "links_shared" with
    | none => rfl
    | some v =>
      cases v with
      | arr l => exact absurd hc (h l)
      | null => rfl
      | bool b => rfl
      | str s2 => rfl
      | num q => rfl
      | obj f => rfl
  · intro j h
    unfold coerceModel
    cases hc : getField j "kb_evidence" with
    | none => rfl
    | some v =>
      cases v with
      | arr l => exact absurd hc (h l)
      | null => rfl
      | bool b => rfl
      | str s2 => rfl
      | num q => rfl
      | obj f => rfl
  · intro j
    rfl
  · intro parse raw h
    unfold parseModelResponse
    rw [h]

/-- C8 amended-claim witness: instantiating the coercions at concrete
parsed values. -/
theorem c8_validator_coercions_witness :
    parseModelResponse cexParse cexRaw = .ok (coerceModel cexJson) ∧
    (coerceModel (Json.obj [("intent_id", .str "")])).intent_id = none ∧
    (coerceModel (Json.obj [("confidence", .str "x")])).confidence = 0 ∧
    (coerceModel (Json.obj [])).reply = "" ∧
    (coerceModel (Json.obj [("followups", .str "nope")])).followups = [] ∧
    parseModelResponse cexParse "not the counterexample text" =
      .error "Failed to parse model JSON" :=
  ⟨c8_validator_coercions.1 cexParse cexRaw cexJson (by rfl),
   c8_validator_coercions.2.1 _ (by rfl),
   c8_validator_coercions.2.2.2.1 _ (fun q h => by cases h),
   c8_validator_coercions.2.2.2.2.1 _ (by rfl),
   c8_validator_coercions.2.2.2.2.2.2.1 _ (fun l h => by cases h),
   c8_validator_coercions.2.2.2.2.2.2.2.2.2.2 cexParse _ (by rfl)⟩

/-- C2 counterexample: in the Worker variant the heuristic branch
returns its reply without the Redaction Filter, so a KB answer carrying
the protected address reaches the caller unscrubbed — the reply is not
a fixed point of the redaction substitution in that code path. -/
theorem c2_worker_heuristic_unscrubbed :
    scrubAddress ((workerChat nullEngine false none "studio" kbLeak).reply) ≠
      (workerChat nullEngine false none "studio" kbLeak).reply := by
  decide

theorem lcA_fix_of_not_letter {c x : Char} (h : lcA c = x)
    (hx : ¬ (97 ≤ x.toNat ∧ x.toNat ≤ 122)) : c = x := by
  have hv := congrArg Char.toNat h
  rw [lcA_toNat] at hv
  split at hv
  · next hr => omega
  · exact toNat_inj hv

theorem chompLit_sound {lit : List Char} :
    ∀ {s r : List Char}, chompLit s lit = some r → ∃ w, CiTok w lit ∧ s = w ++ r := by
  induction lit with
  | nil =>
    intro s r h
    cases s with
    | nil =>
      refine ⟨[], rfl, ?_⟩
      cases h
      rfl
    | cons c cs =>
      refine ⟨[], rfl, ?_⟩
      cases h
      rfl
  | cons d ds ih =>
    intro s r h
    cases s with
    | nil => cases h
    | cons c cs =>
      unfold chompLit at h
      split at h
      · next hd =>
        obtain ⟨w, hw, hsplit⟩ := ih h
        refine ⟨c :: w, ?_, by rw [hsplit]; rfl⟩
        show (c :: w).map lcA = d :: ds
        rw [List.map_cons, hw, hd]
      · cases h

theorem chompLit_compl {lit : List Char} :
    ∀ {w r : List Char}, CiTok w lit → chompLit (w ++ r) lit = some r := by
  induction lit with
  | nil =>
    intro w r hw
    have : w = [] := by
      cases w with
      | nil => rfl
      | cons c cs => cases hw
    subst this
    cases r <;> rfl
  | cons d ds ih =>
    intro w r hw
    cases w with
    | nil => cases hw
    | cons c cs =>
      unfold CiTok at hw
      rw [List.map_cons, List.cons.injEq] at hw
      show chompLit (c :: (cs ++ r)) (d :: ds) = some r
      unfold chompLit
      rw [if_pos hw.1]
      exact ih hw.2

theorem chompOAD_sound {s r : List Char} (h : chompOAD s = some r) :
    ∃ e, (CiTok e ("d").data ∨ CiTok e ("oad").data) ∧ s = e ++ r := by
  unfold chompOAD at h
  split at h
  · next o a d rest =>
    split at h
    · next hoad =>
      cases h
      refine ⟨[o, a, d], Or.inr ?_, rfl⟩
      show [lcA o, lcA a, lcA d] = ['o', 'a', 'd']
      rw [hoad.1, hoad.2.1, hoad.2.2]
    · split at h
      · next hd =>
        cases h
        refine ⟨[o], Or.inl ?_, rfl⟩
        show [lcA o] = ['d']
        rw [hd]
      · cases h
  · next o rest _ =>
    split at h
    · next hd =>
      cases h
      refine ⟨[o], Or.inl ?_, rfl⟩
      show [lcA o] = ['d']
      rw [hd]
    · cases h
  · cases h

theorem chompOAD_compl_d {c : Char} (hc : lcA c = 'd') (r : List Char) :
    chompOAD (c :: r) = some r := by
  cases r with
  | nil =>
    simp only [chompOAD]
    rw [if_pos hc]
  | cons x xs =>
    cases xs with
    | nil =>
      simp only [chompOAD]
      rw [if_pos hc]
    | cons y ys =>
      simp only [chompOAD]
      rw [if_neg ?hfirst, if_pos hc]
      case hfirst =>
        intro hcon
        rw [hc] at hcon
        exact absurd hcon.1 (by decide)

theorem chompOAD_compl_oad {o a d : Char} (ho : lcA o = 'o') (ha : lcA a = 'a')
    (hd : lcA d = 'd') (r : List Char) : chompOAD (o :: a :: d :: r) = some r := by
  simp only [chompOAD]
  rw [if_pos ⟨ho, ha, hd⟩]

theorem dropWhile_eq_of_head_false {p : Char → Bool} {v : List Char}
    (hv : ∀ c, v.head? = some c → p c = false) : v.dropWhile p = v := by
  cases v with
  | nil => rfl
  | cons c cs =>
    rw [List.dropWhile_cons_of_neg]
    rw [hv c rfl]
    exact Bool.false_ne_true

theorem dropWhile_eq_of_head_false2 {p : Char → Bool} {v : List Char}
    (hv : ∀ c, v.head? = some c → p c = false) : v.dropWhile p = v :=
  dropWhile_eq_of_head_false hv

theorem dropWhile_block_append {p : Char → Bool} {u v : List Char}
    (hu : ∀ c ∈ u, p c = true)
    (hv : ∀ c, v.head? = some c → p c = false) :
    (u ++ v).dropWhile p = v := by
  rw [List.dropWhile_append_of_pos hu]
  exact dropWhile_eq_of_head_false hv

theorem dropWhile_run_append {u v : List Char} (hu : SpaceRun u)
    (hv : ∀ c, v.head? = some c → jsWhitespace c = false) :
    (u ++ v).dropWhile jsWhitespace = v :=
  dropWhile_block_append hu hv

theorem spaceRun_takeWhile (l : List Char) : SpaceRun (l.takeWhile jsWhitespace) :=
  fun _ hc => List.mem_takeWhile_imp hc

theorem citok_head {w : List Char} {x : Char} {xs : List Char}
    (h : CiTok w (x :: xs)) : ∃ c ws2, w = c :: ws2 ∧ lcA c = x ∧ CiTok ws2 xs := by
  cases w with
  | nil => cases h
  | cons c ws2 =>
    unfold CiTok at h
    rw [List.map_cons, List.cons.injEq] at h
    exact ⟨c, ws2, rfl, h.1, h.2⟩

theorem citok_append {w1 w2 l1 l2 : List Char} (h1 : CiTok w1 l1) (h2 : CiTok w2 l2) :
    CiTok (w1 ++ w2) (l1 ++ l2) := by
  unfold CiTok at h1 h2 ⊢
  rw [List.map_append, h1, h2]

theorem citok_ne_nil {w : List Char} {x : Char} {xs : List Char}
    (h : CiTok w (x :: xs)) : w ≠ [] := by
  obtain ⟨c, ws2, rfl, _, _⟩ := citok_head h
  exact List.cons_ne_nil c ws2

/-- The head of an `abbey` or `rd`/`road` token is not whitespace. -/
theorem citok_head_not_ws {w : List Char} {x : Char} {xs : List Char}
    (h : CiTok w (x :: xs)) (hx : jsWhitespace x = false) :
    ∀ c, w.head? = some c → jsWhitespace c = false := by
  obtain ⟨c, ws2, rfl, hc, _⟩ := citok_head h
  intro d hd
  cases hd
  exact ws_false_of_lcA hc hx

theorem mand1_sound {s r : List Char} (h : mand1 s = some r) :
    ∃ w, Addr1 w ∧ s = w ++ r := by
  unfold mand1 at h
  cases h1 : chompLit s ['1', '0', '9'] with
  | none => rw [h1] at h; cases h
  | some s1 =>
    rw [h1] at h
    dsimp only [] at h
    cases h2 : chompLit (s1.dropWhile jsWhitespace) ['a', 'b', 'b', 'e', 'y'] with
    | none => rw [h2] at h; cases h
    | some s3 =>
      rw [h2] at h
      dsimp only [] at h
      cases h3 : chompLit (s3.dropWhile jsWhitespace) ['r'] with
      | none => rw [h3] at h; cases h
      | some s5 =>
        rw [h3] at h
        dsimp only [] at h
        obtain ⟨a, ha, has⟩ := chompLit_sound h1
        obtain ⟨b, hb, hbs⟩ := chompLit_sound h2
        obtain ⟨rr, hrr, hrs⟩ := chompLit_sound h3
        obtain ⟨e0, he0, hes⟩ := chompOAD_sound h
        refine ⟨a ++ s1.takeWhile jsWhitespace ++ b ++ s3.takeWhile jsWhitespace ++ (rr ++ e0),
          ⟨a, s1.takeWhile jsWhitespace, b, s3.takeWhile jsWhitespace, rr ++ e0,
            rfl, ha, spaceRun_takeWhile s1, hb, spaceRun_takeWhile s3, ?_⟩, ?_⟩
        · rcases he0 with he0 | he0
          · exact Or.inl (citok_append hrr he0)
          · exact Or.inr (citok_append hrr he0)
        · rw [has]
          have hs1 : s1 = s1.takeWhile jsWhitespace ++ (b ++ s3) := by
            conv_lhs => rw [← List.takeWhile_append_dropWhile jsWhitespace s1]
            rw [hbs]
          have hs3 : s3 = s3.takeWhile jsWhitespace ++ (rr ++ (e0 ++ r)) := by
            conv_lhs => rw [← List.takeWhile_append_dropWhile jsWhitespace s3]
            rw [hrs, hes]
          conv_lhs => rw [hs1, hs3]
          simp only [List.append_assoc]

theorem ciRdRoad_head {e : List Char}
    (he : CiTok e ("rd").data ∨ CiTok e ("road").data) :
    ∀ c, e.head? = some c → jsWhitespace c = false := by
  rcases he with he | he
  · exact citok_head_not_ws he (by decide)
  · exact citok_head_not_ws he (by decide)

/-- Chomping `r` then the `(oa)?d` tail off an `rd`/`road` token
followed by `r2` leaves exactly `r2`. -/
theorem rdRoad_chomp {e : List Char}
    (he : CiTok e ("rd").data ∨ CiTok e ("road").data) (r2 : List Char) :
    ∃ s5, chompLit (e ++ r2) ['r'] = some s5 ∧ chompOAD s5 = some r2 := by
  rcases he with he | he
  · obtain ⟨c1, e2, rfl, hc1, he2⟩ := citok_head he
    obtain ⟨c2, e3, rfl, hc2, he3⟩ := citok_head he2
    have he3nil : e3 = [] := by
      cases e3 with
      | nil => rfl
      | cons x xs => cases he3
    subst he3nil
    refine ⟨c2 :: r2, ?_, chompOAD_compl_d hc2 r2⟩
    show chompLit (c1 :: (c2 :: r2)) ['r'] = some (c2 :: r2)
    unfold chompLit
    rw [if_pos hc1]
    rfl
  · obtain ⟨c1, e2, rfl, hc1, he2⟩ := citok_head he
    obtain ⟨c2, e3, rfl, hc2, he3⟩ := citok_head he2
    obtain ⟨c3, e4, rfl, hc3, he4⟩ := citok_head he3
    obtain ⟨c4, e5, rfl, hc4, he5⟩ := citok_head he4
    have he5nil : e5 = [] := by
      cases e5 with
      | nil => rfl
      | cons x xs => cases he5
    subst he5nil
    refine ⟨c2 :: c3 :: c4 :: r2, ?_, chompOAD_compl_oad hc2 hc3 hc4 r2⟩
    show chompLit (c1 :: (c2 :: c3 :: c4 :: r2)) ['r'] = some (c2 :: c3 :: c4 :: r2)
    unfold chompLit
    rw [if_pos hc1]
    rfl

theorem mand1_compl {w : List Char} (hw : Addr1 w) (r : List Char) :
    mand1 (w ++ r) = some r := by
  obtain ⟨a, s1, b, s2, e, rfl, ha, hs1, hb, hs2, he⟩ := hw
  unfold mand1
  have h109 : chompLit (a ++ (s1 ++ b ++ s2 ++ e ++ r)) ['1', '0', '9'] =
      some (s1 ++ b ++ s2 ++ e ++ r) := chompLit_compl ha
  rw [show a ++ s1 ++ b ++ s2 ++ e ++ r = a ++ (s1 ++ b ++ s2 ++ e ++ r) by
    simp only [List.append_assoc]]
  rw [h109]
  dsimp only []
  have hdrop1 : (s1 ++ b ++ s2 ++ e ++ r).dropWhile jsWhitespace = b ++ s2 ++ e ++ r := by
    rw [show s1 ++ b ++ s2 ++ e ++ r = s1 ++ (b ++ (s2 ++ e ++ r)) by
      simp only [List.append_assoc]]
    rw [dropWhile_run_append hs1 ?hd]
    · simp only [List.append_assoc]
    case hd =>
      intro c hc
      obtain ⟨c2, bs2, rfl, hc2, _⟩ := citok_head hb
      cases hc
      exact ws_false_of_lcA hc2 (by decide)
  rw [hdrop1]
  have habbey : chompLit (b ++ (s2 ++ e ++ r)) ['a', 'b', 'b', 'e', 'y'] =
      some (s2 ++ e ++ r) := chompLit_compl hb
  rw [show b ++ s2 ++ e ++ r = b ++ (s2 ++ e ++ r) by simp only [List.append_assoc]]
  rw [habbey]
  dsimp only []
  have hdrop2 : (s2 ++ e ++ r).dropWhile jsWhitespace = e ++ r := by
    rw [show s2 ++ e ++ r = s2 ++ (e ++ r) by simp only [List.append_assoc]]
    rw [dropWhile_run_append hs2 ?he2]
    case he2 =>
      intro c hc
      cases e with
      | nil =>
        rcases he with he | he <;> cases he
      | cons e1 es =>
        simp only [List.cons_append, List.head?_cons, Option.some.injEq] at hc
        subst hc
        exact ciRdRoad_head he e1 rfl
  rw [hdrop2]
  obtain ⟨s5, hch, hoad⟩ := rdRoad_chomp he r
  rw [hch]
  exact hoad

theorem ws_not_digit {c : Char} (h : jsWhitespace c = true) : isDigitCh c = false := by
  unfold jsWhitespace at h
  unfold isDigitCh
  simp only [Bool.or_eq_true, decide_eq_true_eq, Bool.and_eq_true] at h ⊢
  simp only [Bool.and_eq_false_iff, decide_eq_false_iff_not]
  omega

theorem digit_not_ws {c : Char} (h : isDigitCh c = true) : jsWhitespace c = false := by
  cases hw : jsWhitespace c
  · rfl
  · rw [ws_not_digit hw] at h
    cases h

theorem mand2_sound {s r : List Char} (h : mand2 s = some r) :
    ∃ w, Addr2 w ∧ s = w ++ r := by
  unfold mand2 at h
  cases s with
  | nil => cases h
  | cons c rest =>
    dsimp only [] at h
    by_cases hd : isDigitCh c = true
    swap
    · rw [if_neg hd] at h
      cases h
    rw [if_pos hd] at h
    cases hdig : rest.dropWhile isDigitCh with
    | nil => rw [hdig] at h; cases h
    | cons c2 r2 =>
      rw [hdig] at h
      dsimp only [] at h
      by_cases hws : jsWhitespace c2 = true
      swap
      · rw [if_neg hws] at h
        cases h
      rw [if_pos hws] at h
      cases h2 : chompLit (r2.dropWhile jsWhitespace) ['a', 'b', 'b', 'e', 'y'] with
      | none => rw [h2] at h; cases h
      | some s3 =>
        rw [h2] at h
        dsimp only [] at h
        cases hs3 : s3 with
        | nil => rw [hs3] at h; cases h
        | cons c3 r3 =>
          rw [hs3] at h
          dsimp only [] at h
          by_cases hws2 : jsWhitespace c3 = true
          swap
          · rw [if_neg hws2] at h
            cases h
          rw [if_pos hws2] at h
          cases h3 : chompLit (r3.dropWhile jsWhitespace) ['r'] with
          | none => rw [h3] at h; cases h
          | some s5 =>
            rw [h3] at h
            dsimp only [] at h
            obtain ⟨b, hb, hbs⟩ := chompLit_sound h2
            obtain ⟨rr, hrr, hrs⟩ := chompLit_sound h3
            obtain ⟨e0, he0, hes⟩ := chompOAD_sound h
            refine ⟨(c :: rest.takeWhile isDigitCh) ++ (c2 :: r2.takeWhile jsWhitespace) ++
                b ++ (c3 :: r3.takeWhile jsWhitespace) ++ (rr ++ e0),
              ⟨c :: rest.takeWhile isDigitCh, c2 :: r2.takeWhile jsWhitespace, b,
                c3 :: r3.takeWhile jsWhitespace, rr ++ e0, rfl,
                List.cons_ne_nil c _, ?_, List.cons_ne_nil c2 _, ?_, hb,
                List.cons_ne_nil c3 _, ?_, ?_⟩, ?_⟩
            · intro x hx
              rcases List.mem_cons.mp hx with rfl | hx
              · exact hd
              · exact List.mem_takeWhile_imp hx
            · intro x hx
              rcases List.mem_cons.mp hx with rfl | hx
              · exact hws
              · exact List.mem_takeWhile_imp hx
            · intro x hx
              rcases List.mem_cons.mp hx with rfl | hx
              · exact hws2
              · exact List.mem_takeWhile_imp hx
            · rcases he0 with he0 | he0
              · exact Or.inl (citok_append hrr he0)
              · exact Or.inr (citok_append hrr he0)
            · show c :: rest = _
              have hrest : rest = rest.takeWhile isDigitCh ++ (c2 :: r2) := by
                conv_lhs => rw [← List.takeWhile_append_dropWhile isDigitCh rest]
                rw [hdig]
              have hr2 : r2 = r2.takeWhile jsWhitespace ++ (b ++ s3) := by
                conv_lhs => rw [← List.takeWhile_append_dropWhile jsWhitespace r2]
                rw [hbs]
              have hr3 : r3 = r3.takeWhile jsWhitespace ++ (rr ++ (e0 ++ r)) := by
                conv_lhs => rw [← List.takeWhile_append_dropWhile jsWhitespace r3]
                rw [hrs, hes]
              conv_lhs => rw [hrest, hr2, hs3, hr3]
              simp only [List.append_assoc, List.cons_append]

theorem mand2_compl {w : List Char} (hw : Addr2 w) (r : List Char) :
    mand2 (w ++ r) = some r := by
  obtain ⟨d, s1, b, s2, e, rfl, hdne, hdig, hs1ne, hs1, hb, hs2ne, hs2, he⟩ := hw
  cases d with
  | nil => exact absurd rfl hdne
  | cons c d2 =>
  cases s1 with
  | nil => exact absurd rfl hs1ne
  | cons c2 s12 =>
  cases s2 with
  | nil => exact absurd rfl hs2ne
  | cons c3 s22 =>
  show mand2 (c :: (d2 ++ (c2 :: s12) ++ b ++ (c3 :: s22) ++ e ++ r)) = some r
  unfold mand2
  dsimp only []
  rw [if_pos (hdig c (List.mem_cons_self c d2))]
  have hdrop : (d2 ++ (c2 :: s12) ++ b ++ (c3 :: s22) ++ e ++ r).dropWhile isDigitCh =
      (c2 :: s12) ++ b ++ (c3 :: s22) ++ e ++ r := by
    rw [show d2 ++ (c2 :: s12) ++ b ++ (c3 :: s22) ++ e ++ r =
        d2 ++ ((c2 :: s12) ++ b ++ (c3 :: s22) ++ e ++ r) by simp only [List.append_assoc]]
    rw [dropWhile_block_append ?hdig2 ?hhead]
    case hdig2 =>
      intro x hx
      exact hdig x (List.mem_cons_of_mem c hx)
    case hhead =>
      intro x hx
      simp only [List.cons_append, List.append_assoc, List.head?_cons, Option.some.injEq] at hx
      subst hx
      exact ws_not_digit (hs1 c2 (List.mem_cons_self c2 s12))
  rw [show d2 ++ (c2 :: s12) ++ b ++ (c3 :: s22) ++ e ++ r =
      d2 ++ ((c2 :: s12) ++ b ++ (c3 :: s22) ++ e ++ r) by simp only [List.append_assoc]] at hdrop ⊢
  rw [hdrop]
  dsimp only [List.cons_append]
  rw [if_pos (hs1 c2 (List.mem_cons_self c2 s12))]
  have hdrop2 : (s12 ++ (b ++ ((c3 :: s22) ++ (e ++ r)))).dropWhile jsWhitespace =
      b ++ ((c3 :: s22) ++ (e ++ r)) := by
    rw [dropWhile_block_append ?hws ?hh2]
    case hws =>
      intro x hx
      exact hs1 x (List.mem_cons_of_mem c2 hx)
    case hh2 =>
      intro x hx
      obtain ⟨cb, bs2, rfl, hcb, _⟩ := citok_head hb
      simp only [List.cons_append, List.head?_cons, Option.some.injEq] at hx
      subst hx
      exact ws_false_of_lcA hcb (by decide)
  rw [show s12 ++ b ++ (c3 :: s22) ++ e ++ r =
      s12 ++ (b ++ ((c3 :: s22) ++ (e ++ r))) by simp only [List.append_assoc]]
  rw [hdrop2]
  rw [show b ++ ((c3 :: s22) ++ (e ++ r)) = b ++ ((c3 :: s22) ++ (e ++ r)) from rfl]
  rw [chompLit_compl hb]
  dsimp only [List.cons_append]
  rw [if_pos (hs2 c3 (List.mem_cons_self c3 s22))]
  have hdrop3 : (s22 ++ (e ++ r)).dropWhile jsWhitespace = e ++ r := by
    rw [dropWhile_block_append ?hws3 ?hh3]
    case hws3 =>
      intro x hx
      exact hs2 x (List.mem_cons_of_mem c3 hx)
    case hh3 =>
      intro x hx
      cases e with
      | nil =>
        rcases he with he | he <;> cases he
      | cons e1 es =>
        simp only [List.cons_append, List.head?_cons, Option.some.injEq] at hx
        subst hx
        exact ciRdRoad_head he e1 rfl
  rw [hdrop3]
  obtain ⟨s5, hch, hoad⟩ := rdRoad_chomp he r
  rw [hch]
  exact hoad

theorem matchA1_sound {s r : List Char} (h : matchA1 s = some r) :
    ∃ w t2, Addr1 w ∧ s = w ++ t2 ++ r := by
  unfold matchA1 at h
  cases h1 : mand1 s with
  | none => rw [h1] at h; cases h
  | some r0 =>
    rw [h1] at h
    simp only [Option.map_some'] at h
    obtain ⟨w, hw, hs⟩ := mand1_sound h1
    refine ⟨w, r0.takeWhile (fun c => decide (c ≠ ',')), hw, ?_⟩
    have hr : r = r0.dropWhile (fun c => decide (c ≠ ',')) := (Option.some.inj h).symm
    rw [hs, hr]
    conv_lhs => rw [← List.takeWhile_append_dropWhile (fun c => decide (c ≠ ',')) r0]
    simp only [List.append_assoc]

theorem matchA1_compl {w : List Char} (hw : Addr1 w) (r : List Char) :
    matchA1 (w ++ r) ≠ none := by
  unfold matchA1
  rw [mand1_compl hw r]
  simp

theorem addr1_ne_nil {w : List Char} (hw : Addr1 w) : w ≠ [] := by
  obtain ⟨a, s1, b, s2, e, rfl, ha, _, _, _, _⟩ := hw
  have := citok_ne_nil ha
  cases a with
  | nil => exact absurd rfl this
  | cons c cs => simp

theorem addr2_ne_nil {w : List Char} (hw : Addr2 w) : w ≠ [] := by
  obtain ⟨d, s1, b, s2, e, rfl, hdne, _, _, _, _, _, _, _⟩ := hw
  cases d with
  | nil => exact absurd rfl hdne
  | cons c cs => simp

theorem goodch_of_ws {c : Char} (h : jsWhitespace c = true) : GoodCh c = true := by
  unfold GoodCh
  rw [h]
  rfl

theorem goodch_of_digit {c : Char} (h : isDigitCh c = true) : GoodCh c = true := by
  unfold GoodCh
  rw [h]
  simp

theorem goodch_of_letter {c x : Char} (h : lcA c = x)
    (hx : x ∈ (['a', 'b', 'e', 'y', 'r', 'o', 'd'] : List Char)) : GoodCh c = true := by
  unfold GoodCh
  rw [h]
  simp only [List.mem_cons, List.not_mem_nil, or_false] at hx
  rcases hx with rfl | rfl | rfl | rfl | rfl | rfl | rfl <;> simp

theorem lcA_mem_of_citok {w lit : List Char} (h : CiTok w lit) {c : Char}
    (hc : c ∈ w) : lcA c ∈ lit := by
  rw [← h]
  exact List.mem_map_of_mem lcA hc

theorem mem_letters_of_abbey {y : Char} (h : y ∈ ("abbey").data) :
    y ∈ (['a', 'b', 'e', 'y', 'r', 'o', 'd'] : List Char) := by
  have h2 : y ∈ ['a', 'b', 'b', 'e', 'y'] := h
  simp only [List.mem_cons, List.not_mem_nil, or_false] at h2
  rcases h2 with rfl | rfl | rfl | rfl | rfl <;> decide

theorem mem_letters_of_rd {y : Char} (h : y ∈ ("rd").data) :
    y ∈ (['a', 'b', 'e', 'y', 'r', 'o', 'd'] : List Char) := by
  have h2 : y ∈ ['r', 'd'] := h
  simp only [List.mem_cons, List.not_mem_nil, or_false] at h2
  rcases h2 with rfl | rfl <;> decide

theorem mem_letters_of_road {y : Char} (h : y ∈ ("road").data) :
    y ∈ (['a', 'b', 'e', 'y', 'r', 'o', 'd'] : List Char) := by
  have h2 : y ∈ ['r', 'o', 'a', 'd'] := h
  simp only [List.mem_cons, List.not_mem_nil, or_false] at h2
  rcases h2 with rfl | rfl | rfl | rfl <;> decide

theorem digit_of_lcA_109 {c x : Char} (h : lcA c = x)
    (hx : x ∈ ("109").data) : isDigitCh c = true := by
  have h2 : x ∈ ['1', '0', '9'] := hx
  simp only [List.mem_cons, List.not_mem_nil, or_false] at h2
  have hc : c = x := by
    apply lcA_fix_of_not_letter h
    rcases h2 with rfl | rfl | rfl <;> decide
  subst hc
  rcases h2 with rfl | rfl | rfl <;> rfl

theorem addr1_good {w : List Char} (hw : Addr1 w) : ∀ c ∈ w, GoodCh c = true := by
  obtain ⟨a, s1, b, s2, e, rfl, ha, hs1, hb, hs2, he⟩ := hw
  intro c hc
  simp only [List.append_assoc, List.mem_append] at hc
  rcases hc with hc | hc | hc | hc | hc
  · exact goodch_of_digit (digit_of_lcA_109 rfl (lcA_mem_of_citok ha hc))
  · exact goodch_of_ws (hs1 c hc)
  · exact goodch_of_letter rfl (mem_letters_of_abbey (lcA_mem_of_citok hb hc))
  · exact goodch_of_ws (hs2 c hc)
  · rcases he with he | he
    · exact goodch_of_letter rfl (mem_letters_of_rd (lcA_mem_of_citok he hc))
    · exact goodch_of_letter rfl (mem_letters_of_road (lcA_mem_of_citok he hc))

theorem addr2_good {w : List Char} (hw : Addr2 w) : ∀ c ∈ w, GoodCh c = true := by
  obtain ⟨d, s1, b, s2, e, rfl, hdne, hdig, hs1ne, hs1, hb, hs2ne, hs2, he⟩ := hw
  intro c hc
  simp only [List.append_assoc, List.mem_append] at hc
  rcases hc with hc | hc | hc | hc | hc
  · exact goodch_of_digit (hdig c hc)
  · exact goodch_of_ws (hs1 c hc)
  · exact goodch_of_letter rfl (mem_letters_of_abbey (lcA_mem_of_citok hb hc))
  · exact goodch_of_ws (hs2 c hc)
  · rcases he with he | he
    · exact goodch_of_letter rfl (mem_letters_of_rd (lcA_mem_of_citok he hc))
    · exact goodch_of_letter rfl (mem_letters_of_road (lcA_mem_of_citok he hc))

theorem addr1_head {w : List Char} (hw : Addr1 w) : ∃ w2, w = '1' :: w2 := by
  obtain ⟨a, s1, b, s2, e, rfl, ha, _, _, _, _⟩ := hw
  obtain ⟨c, a2, rfl, hc, _⟩ := citok_head ha
  have : c = '1' := lcA_fix_of_not_letter hc (by decide)
  subst this
  exact ⟨a2 ++ s1 ++ b ++ s2 ++ e, by simp only [List.append_assoc, List.cons_append]⟩

theorem addr2_head {w : List Char} (hw : Addr2 w) :
    ∃ c w2, w = c :: w2 ∧ isDigitCh c = true := by
  obtain ⟨d, s1, b, s2, e, rfl, hdne, hdig, _, _, _, _, _, _⟩ := hw
  cases d with
  | nil => exact absurd rfl hdne
  | cons c d2 =>
    exact ⟨c, d2 ++ s1 ++ b ++ s2 ++ e, by simp only [List.append_assoc, List.cons_append],
      hdig c (List.mem_cons_self c d2)⟩

theorem matchA1_consume {t r : List Char} (h : matchA1 t = some r) :
    r.length < t.length := by
  obtain ⟨w, t2, hw, ht⟩ := matchA1_sound h
  have hwne := addr1_ne_nil hw
  rw [ht]
  simp only [List.length_append]
  cases w with
  | nil => exact absurd rfl hwne
  | cons x xs => simp only [List.length_cons]; omega

theorem mand2_consume {t r : List Char} (h : mand2 t = some r) :
    r.length < t.length := by
  obtain ⟨w, hw, ht⟩ := mand2_sound h
  have hwne := addr2_ne_nil hw
  rw [ht]
  simp only [List.length_append]
  cases w with
  | nil => exact absurd rfl hwne
  | cons x xs => simp only [List.length_cons]; omega

theorem subAt_nil {w : List Char} (h : SubAt w []) : w = [] := by
  obtain ⟨a, b, hab⟩ := h
  have := congrArg List.length hab
  simp only [List.length_nil, List.length_append] at this
  cases w with
  | nil => rfl
  | cons x xs => simp only [List.length_cons] at this; omega

theorem subAt_cons {w t : List Char} (c : Char) (h : SubAt w t) : SubAt w (c :: t) := by
  obtain ⟨a, b, rfl⟩ := h
  exact ⟨c :: a, b, rfl⟩

theorem subAt_append_left {w t : List Char} (u : List Char) (h : SubAt w t) :
    SubAt w (u ++ t) := by
  obtain ⟨a, b, rfl⟩ := h
  exact ⟨u ++ a, b, by simp only [List.append_assoc]⟩

theorem scrubR_eq : scrubR = 'S' :: ("tudio in Suffolk, VA").data := by decide

theorem goodch_S : GoodCh 'S' = false := by decide

theorem replAux_nil (m : List Char → Option (List Char)) (r : List Char) (fuel : Nat) :
    replAux m r fuel [] = [] := by
  cases fuel <;> rfl

theorem replAux_succ (m : List Char → Option (List Char)) (r : List Char) (fuel : Nat)
    (c : Char) (rest : List Char) :
    replAux m r (fuel + 1) (c :: rest) =
      match m (c :: rest) with
      | some rest2 => r ++ replAux m r fuel rest2
      | none => c :: replAux m r fuel rest := rfl

/-- A good-character block at the front of the scan output comes
entirely from the front of the input: the replacement text starts with
`S`, which is not a good character, so a good block can never cross into
an inserted replacement. -/
theorem replPrefixT (m : List Char → Option (List Char)) :
    ∀ (fuel : Nat) (t : List Char), t.length ≤ fuel →
      ∀ v z, (∀ c ∈ v, GoodCh c = true) → replAux m scrubR fuel t = v ++ z →
        ∃ z2, t = v ++ z2 := by
  intro fuel
  induction fuel with
  | zero =>
    intro t ht v z hv heq
    have ht0 : t = [] := List.length_eq_zero.mp (Nat.le_zero.mp ht)
    subst ht0
    rw [replAux_nil] at heq
    have hv0 : v = [] := by
      cases v with
      | nil => rfl
      | cons x xs => cases heq
    subst hv0
    exact ⟨[], rfl⟩
  | succ fuel ih =>
    intro t ht v z hv heq
    cases t with
    | nil =>
      rw [replAux_nil] at heq
      have hv0 : v = [] := by
        cases v with
        | nil => rfl
        | cons x xs => cases heq
      subst hv0
      exact ⟨[], rfl⟩
    | cons c rest =>
      rw [replAux_succ] at heq
      cases hm : m (c :: rest) with
      | some rest2 =>
        rw [hm] at heq
        dsimp only [] at heq
        cases v with
        | nil => exact ⟨c :: rest, rfl⟩
        | cons d v2 =>
          exfalso
          rw [scrubR_eq] at heq
          simp only [List.cons_append, List.cons.injEq] at heq
          have hd : d = 'S' := heq.1.symm
          subst hd
          have := hv 'S' (List.mem_cons_self _ _)
          rw [goodch_S] at this
          cases this
      | none =>
        rw [hm] at heq
        dsimp only [] at heq
        cases v with
        | nil => exact ⟨c :: rest, rfl⟩
        | cons d v2 =>
          simp only [List.cons_append, List.cons.injEq] at heq
          obtain ⟨hdc, heq2⟩ := heq
          subst hdc
          have hrest : rest.length ≤ fuel := by
            simp only [List.length_cons] at ht
            omega
          obtain ⟨z2, hz2⟩ := ih rest hrest v2 z
            (fun x hx => hv x (List.mem_cons_of_mem _ hx)) heq2
          exact ⟨z2, by rw [hz2]; rfl⟩

/-- The scan output never contains a pattern word: matches present in
the input are consumed, and the replacement text cannot take part in a
new one. -/
theorem replNoOccSelf (m : List Char → Option (List Char)) (P : List Char → Prop)
    (hcompl : ∀ w r2, P w → m (w ++ r2) ≠ none)
    (hcons : ∀ t r2, m t = some r2 → r2.length < t.length)
    (hne : ∀ w, P w → w ≠ [])
    (hGood : ∀ w, P w → ∀ c ∈ w, GoodCh c = true)
    (hheadR : ∀ w c w2, P w → w = c :: w2 → c ∉ scrubR) :
    ∀ (fuel : Nat) (s : List Char), s.length ≤ fuel →
      ∀ w, P w → ¬ SubAt w (replAux m scrubR fuel s) := by
  intro fuel
  induction fuel with
  | zero =>
    intro s hs w hw hsub
    have hs0 : s = [] := List.length_eq_zero.mp (Nat.le_zero.mp hs)
    subst hs0
    rw [replAux_nil] at hsub
    exact hne w hw (subAt_nil hsub)
  | succ fuel ih =>
    intro s hs w hw hsub
    cases s with
    | nil =>
      rw [replAux_nil] at hsub
      exact hne w hw (subAt_nil hsub)
    | cons c rest =>
      rw [replAux_succ] at hsub
      cases hm : m (c :: rest) with
      | some rest2 =>
        rw [hm] at hsub
        dsimp only [] at hsub
        have hr2 : rest2.length ≤ fuel := by
          have := hcons (c :: rest) rest2 hm
          simp only [List.length_cons] at this hs
          omega
        obtain ⟨p, q, hpq⟩ := hsub
        rw [show p ++ w ++ q = p ++ (w ++ q) by simp only [List.append_assoc]] at hpq
        rcases List.append_eq_append_iff.mp hpq.symm with ⟨u, hu1, hu2⟩ | ⟨u, hu1, hu2⟩
        · cases u with
          | nil =>
            rw [List.nil_append] at hu2
            exact ih rest2 hr2 w hw ⟨[], q, by rw [← hu2]; rfl⟩
          | cons d u2 =>
            cases w with
            | nil => exact hne [] hw rfl
            | cons e w2 =>
              simp only [List.cons_append, List.cons.injEq] at hu2
              have hde : e = d := hu2.1
              have hdmem : d ∈ scrubR := by
                rw [hu1]
                exact List.mem_append_right p (List.mem_cons_self d u2)
              exact hheadR (e :: w2) e w2 hw rfl (hde ▸ hdmem)
        · exact ih rest2 hr2 w hw ⟨u, q, by rw [hu2, List.append_assoc]⟩
      | none =>
        rw [hm] at hsub
        dsimp only [] at hsub
        have hrest : rest.length ≤ fuel := by
          simp only [List.length_cons] at hs
          omega
        obtain ⟨p, q, hpq⟩ := hsub
        cases p with
        | nil =>
          simp only [List.nil_append] at hpq
          obtain ⟨z2, hz2⟩ := replPrefixT m (fuel + 1) (c :: rest) hs w q
            (hGood w hw) (by rw [replAux_succ, hm]; exact hpq)
          exact hcompl w z2 hw (by rw [← hz2]; exact hm)
        | cons d p2 =>
          simp only [List.cons_append, List.cons.injEq] at hpq
          exact ih rest hrest w hw ⟨p2, q, hpq.2⟩

/-- Scanning with one matcher introduces no occurrence of an unrelated
pattern word either: each pattern word starts with a character absent
from the replacement and uses only good characters. -/
theorem replNoOccOther (m : List Char → Option (List Char)) (Q : List Char → Prop)
    (hsuffix : ∀ t r2, m t = some r2 → ∃ u, t = u ++ r2)
    (hcons : ∀ t r2, m t = some r2 → r2.length < t.length)
    (hneQ : ∀ w, Q w → w ≠ [])
    (hGoodQ : ∀ w, Q w → ∀ c ∈ w, GoodCh c = true)
    (hheadRQ : ∀ w c w2, Q w → w = c :: w2 → c ∉ scrubR) :
    ∀ (fuel : Nat) (s : List Char), s.length ≤ fuel →
      (∀ w, Q w → ¬ SubAt w s) →
      ∀ w, Q w → ¬ SubAt w (replAux m scrubR fuel s) := by
  intro fuel
  induction fuel with
  | zero =>
    intro s hs hno w hw hsub
    have hs0 : s = [] := List.length_eq_zero.mp (Nat.le_zero.mp hs)
    subst hs0
    rw [replAux_nil] at hsub
    exact hneQ w hw (subAt_nil hsub)
  | succ fuel ih =>
    intro s hs hno w hw hsub
    cases s with
    | nil =>
      rw [replAux_nil] at hsub
      exact hneQ w hw (subAt_nil hsub)
    | cons c rest =>
      rw [replAux_succ] at hsub
      cases hm : m (c :: rest) with
      | some rest2 =>
        rw [hm] at hsub
        dsimp only [] at hsub
        have hr2 : rest2.length ≤ fuel := by
          have := hcons (c :: rest) rest2 hm
          simp only [List.length_cons] at this hs
          omega
        obtain ⟨u0, hu0⟩ := hsuffix (c :: rest) rest2 hm
        have hno2 : ∀ w2, Q w2 → ¬ SubAt w2 rest2 := by
          intro w2 hw2 hsub2
          exact hno w2 hw2 (by rw [hu0]; exact subAt_append_left u0 hsub2)
        obtain ⟨p, q, hpq⟩ := hsub
        rw [show p ++ w ++ q = p ++ (w ++ q) by simp only [List.append_assoc]] at hpq
        rcases List.append_eq_append_iff.mp hpq.symm with ⟨u, hu1, hu2⟩ | ⟨u, hu1, hu2⟩
        · cases u with
          | nil =>
            rw [List.nil_append] at hu2
            exact ih rest2 hr2 hno2 w hw ⟨[], q, by rw [← hu2]; rfl⟩
          | cons d u2 =>
            cases w with
            | nil => exact hneQ [] hw rfl
            | cons e w2 =>
              simp only [List.cons_append, List.cons.injEq] at hu2
              have hde : e = d := hu2.1
              have hdmem : d ∈ scrubR := by
                rw [hu1]
                exact List.mem_append_right p (List.mem_cons_self d u2)
              exact hheadRQ (e :: w2) e w2 hw rfl (hde ▸ hdmem)
        · exact ih rest2 hr2 hno2 w hw ⟨u, q, by rw [hu2, List.append_assoc]⟩
      | none =>
        rw [hm] at hsub
        dsimp only [] at hsub
        have hrest : rest.length ≤ fuel := by
          simp only [List.length_cons] at hs
          omega
        have hno2 : ∀ w2, Q w2 → ¬ SubAt w2 rest := by
          intro w2 hw2 hsub2
          exact hno w2 hw2 (subAt_cons c hsub2)
        obtain ⟨p, q, hpq⟩ := hsub
        cases p with
        | nil =>
          simp only [List.nil_append] at hpq
          obtain ⟨z2, hz2⟩ := replPrefixT m (fuel + 1) (c :: rest) hs w q
            (hGoodQ w hw) (by rw [replAux_succ, hm]; exact hpq)
          exact hno w hw ⟨[], z2, by rw [hz2]; rfl⟩
        | cons d p2 =>
          simp only [List.cons_append, List.cons.injEq] at hpq
          exact ih rest hrest hno2 w hw ⟨p2, q, hpq.2⟩

/-- On an input free of pattern occurrences the scan is the identity. -/
theorem replEqSelf (m : List Char → Option (List Char)) (P : List Char → Prop)
    (hsound : ∀ t r2, m t = some r2 → ∃ w t2, P w ∧ t = w ++ t2 ++ r2) :
    ∀ (fuel : Nat) (s : List Char), s.length ≤ fuel →
      (∀ w, P w → ¬ SubAt w s) → replAux m scrubR fuel s = s := by
  intro fuel
  induction fuel with
  | zero =>
    intro s hs hno
    have hs0 : s = [] := List.length_eq_zero.mp (Nat.le_zero.mp hs)
    subst hs0
    exact replAux_nil m scrubR 0
  | succ fuel ih =>
    intro s hs hno
    cases s with
    | nil => exact replAux_nil m scrubR (fuel + 1)
    | cons c rest =>
      rw [replAux_succ]
      cases hm : m (c :: rest) with
      | some rest2 =>
        exfalso
        obtain ⟨w, t2, hw, ht⟩ := hsound (c :: rest) rest2 hm
        exact hno w hw ⟨[], t2 ++ rest2, by rw [ht]; simp only [List.nil_append,
          List.append_assoc]⟩
      | none =>
        dsimp only []
        have hrest : rest.length ≤ fuel := by
          simp only [List.length_cons] at hs
          omega
        rw [ih rest hrest (fun w hw hsub => hno w hw (subAt_cons c hsub))]

theorem addr1_head_notin_scrubR : ∀ (w : List Char) (c : Char) (w2 : List Char),
    Addr1 w → w = c :: w2 → c ∉ scrubR := by
  intro w c w2 hw heq
  obtain ⟨w3, hw3⟩ := addr1_head hw
  rw [heq] at hw3
  have hc : c = '1' := (List.cons.injEq _ _ _ _ ▸ hw3).1
  subst hc
  decide

theorem addr2_head_notin_scrubR : ∀ (w : List Char) (c : Char) (w2 : List Char),
    Addr2 w → w = c :: w2 → c ∉ scrubR := by
  intro w c w2 hw heq
  obtain ⟨c2, w3, hw3, hdig⟩ := addr2_head hw
  rw [heq] at hw3
  have hc : c = c2 := (List.cons.injEq _ _ _ _ ▸ hw3).1
  subst hc
  intro hmem
  have hall : ∀ x ∈ scrubR, isDigitCh x = false := by decide
  rw [hall c hmem] at hdig
  cases hdig

theorem matchA1_compl2 : ∀ (w r2 : List Char), Addr1 w → matchA1 (w ++ r2) ≠ none :=
  fun _ r2 hw => matchA1_compl hw r2

theorem matchA1_consume2 : ∀ (t r2 : List Char), matchA1 t = some r2 → r2.length < t.length :=
  fun _ _ h => matchA1_consume h

theorem mand2_compl2 : ∀ (w r2 : List Char), Addr2 w → mand2 (w ++ r2) ≠ none := by
  intro w r2 hw h
  rw [mand2_compl hw r2] at h
  cases h

theorem mand2_consume2 : ∀ (t r2 : List Char), mand2 t = some r2 → r2.length < t.length :=
  fun _ _ h => mand2_consume h

theorem mand2_sound2 : ∀ (t r2 : List Char), mand2 t = some r2 →
    ∃ w t2, Addr2 w ∧ t = w ++ t2 ++ r2 := by
  intro t r2 h
  obtain ⟨w, hw, ht⟩ := mand2_sound h
  exact ⟨w, [], hw, by rw [ht]; simp⟩

theorem mand2_suffix : ∀ (t r2 : List Char), mand2 t = some r2 → ∃ u, t = u ++ r2 := by
  intro t r2 h
  obtain ⟨w, hw, ht⟩ := mand2_sound h
  exact ⟨w, ht⟩

theorem matchA1_sound2 : ∀ (t r2 : List Char), matchA1 t = some r2 →
    ∃ w t2, Addr1 w ∧ t = w ++ t2 ++ r2 :=
  fun _ _ h => matchA1_sound h

/-- The output of `scrubChars` contains no occurrence of either address
pattern, hence a second pass leaves it unchanged. -/
theorem scrubChars_idem (s : List Char) : scrubChars (scrubChars s) = scrubChars s := by
  have hno1T : ∀ w, Addr1 w → ¬ SubAt w (replaceAll matchA1 scrubR s) :=
    replNoOccSelf matchA1 Addr1 matchA1_compl2 matchA1_consume2
      (fun _ hw => addr1_ne_nil hw) (fun _ hw => addr1_good hw)
      addr1_head_notin_scrubR s.length s le_rfl
  have hno1U : ∀ w, Addr1 w →
      ¬ SubAt w (replaceAll mand2 scrubR (replaceAll matchA1 scrubR s)) :=
    replNoOccOther mand2 Addr1 mand2_suffix mand2_consume2
      (fun _ hw => addr1_ne_nil hw) (fun _ hw => addr1_good hw)
      addr1_head_notin_scrubR (replaceAll matchA1 scrubR s).length _ le_rfl hno1T
  have hno2U : ∀ w, Addr2 w →
      ¬ SubAt w (replaceAll mand2 scrubR (replaceAll matchA1 scrubR s)) :=
    replNoOccSelf mand2 Addr2 mand2_compl2 mand2_consume2
      (fun _ hw => addr2_ne_nil hw) (fun _ hw => addr2_good hw)
      addr2_head_notin_scrubR (replaceAll matchA1 scrubR s).length _ le_rfl
  show replaceAll mand2 scrubR (replaceAll matchA1 scrubR (scrubChars s)) = scrubChars s
  have h1 : replaceAll matchA1 scrubR (scrubChars s) = scrubChars s :=
    replEqSelf matchA1 Addr1 matchA1_sound2 (scrubChars s).length (scrubChars s) le_rfl hno1U
  rw [h1]
  exact replEqSelf mand2 Addr2 mand2_sound2 (scrubChars s).length (scrubChars s) le_rfl hno2U

theorem scrubAddress_idem (s : String) : scrubAddress (scrubAddress s) = scrubAddress s := by
  unfold scrubAddress
  by_cases h : s = ""
  · simp [h]
  · rw [if_neg h]
    by_cases h2 : (⟨scrubChars s.data⟩ : String) = ""
    · rw [if_pos h2]
    · rw [if_neg h2]
      show (⟨scrubChars (scrubChars s.data)⟩ : String) = ⟨scrubChars s.data⟩
      rw [scrubChars_idem]

/-- C9: the Redaction Filter is idempotent — applying it twice yields
the same text as applying it once. -/
theorem c9_redaction_idempotent (s : String) :
    scrubAddress (scrubAddress s) = scrubAddress s :=
  scrubAddress_idem s

/-- C2 as amended: in the Express handler (`server.js`) the outbound
reply of every path — model or heuristic, matched, substituted or
escalated — is a fixed point of the Redaction Filter, because the final
safety pass scrubs unconditionally and the scrub is idempotent.  (In the
Worker variant this holds only for the model path; the heuristic branch
there returns unscrubbed text, see the counterexample.) -/
theorem c2_server_reply_scrub_fixed_point (e : RegexEngine) (cfg : Bool)
    (mo : Option ModelResult) (msg : String) (kb : KB) :
    scrubAddress ((serverChat e cfg mo msg kb).reply) = (serverChat e cfg mo msg kb).reply :=
  scrubAddress_idem _

end Motionbot
